import Mathlib

/-!
Verification of the core claims of the SGen garbage collector
(`src/mono/metadata/sgen-gc.c`) against a shallow embedding in Lean.

Machine words (`mword`, pointers) are modelled as `Nat`; where C unsigned
wrap-around matters we compute modulo `2^64` explicitly.  External
collaborators (major collector, remembered-set implementation, gray-queue
internals, the hash-table primitive, the finalization / weak-link hash that
lives in `sgen-fin-weak-hash.c`) are abstracted as parameters or event
emitting state transformers; every control decision and arithmetic step of
the embedded functions is translated from the C source.
-/

namespace SgenGC

/-- Word size modulus: `mword` is a 64-bit unsigned integer. -/
def wordMod : Nat := 18446744073709551616

/-- Wrapping addition of two machine words. -/
def wadd (a b : Nat) : Nat := (a + b) % wordMod

/-- Wrapping subtraction `a - b` of two machine words. -/
def wsub (a b : Nat) : Nat := (a + (wordMod - b % wordMod)) % wordMod

theorem wadd_wsub_cancel (r s : Nat) (hr : r < wordMod) :
    wsub (wadd r s) (s % wordMod) = r := by
  unfold wsub wadd wordMod at *
  omega

/-!
## Heap size limits (`init_heap_size_limits`, sgen-gc.c lines 594-613)

`max_heap_size` and `soft_heap_limit` are static `mword`s initialised to
`((mword)0)-((mword)1)`; the function receives the configured values
(`glong`, non-negative after option parsing) and either adjusts the limits
or prints a fatal message and calls `exit (1)` (modelled as `none`).
-/

structure HeapLimits where
  maxHeapSize : Nat
  softHeapLimit : Nat
  deriving Repr, DecidableEq

/-- Initial values of the limit globals: `((mword)0) - ((mword)1)`. -/
def initialHeapLimits : HeapLimits :=
  { maxHeapSize := wordMod - 1, softHeapLimit := wordMod - 1 }

/-- Embedding of `init_heap_size_limits (glong max_heap, glong soft_limit)`.
`nursery_size` is the global configured nursery size.  A fatal
`exit (1)` is modelled as `none`. -/
def init_heap_size_limits (st : HeapLimits) (maxHeap softLimit nurserySize : Nat) :
    Option HeapLimits :=
  let st := if softLimit ≠ 0 then { st with softHeapLimit := softLimit } else st
  if maxHeap = 0 then some st
  else if maxHeap < softLimit then none
  else if maxHeap < nurserySize * 4 then none
  else some { st with maxHeapSize := maxHeap - nurserySize }

/-!
## Minor collection allowance (`try_calculate_minor_collection_allowance`,
sgen-gc.c lines 2308-2382)

The `allowance_target` value is computed by the source with `double`
arithmetic (line 2357); the claims under scrutiny concern only the two
clamping steps that follow (lines 2359-2366), so the target enters the
embedding as an input.  `new_major = num_major_sections * section_size` and
`new_heap_size = new_major + last_collection_los_memory_usage` (lines
2331-2332).  `MIN_MINOR_COLLECTION_ALLOWANCE` (`DEFAULT_NURSERY_SIZE * 4`)
is the parameter `minAllowance`. -/
def try_calculate_minor_collection_allowance
    (allowanceTarget numMajorSections sectionSize losMemoryUsage
     lastCollectionLosMemoryUsage softHeapLimit minAllowance : Nat) : Nat :=
  let allowance1 :=
    max (min allowanceTarget (numMajorSections * sectionSize + losMemoryUsage)) minAllowance
  let newHeapSize := numMajorSections * sectionSize + lastCollectionLosMemoryUsage
  if newHeapSize + allowance1 > softHeapLimit then
    if newHeapSize > softHeapLimit then minAllowance
    else max (softHeapLimit - newHeapSize) minAllowance
  else allowance1

/-!
### Theorems for the heap-limit and allowance claims
-/

/-- C8: at initialization, a configured (`maxHeap ≠ 0`) max-heap-size smaller
than four times the nursery size, or smaller than the configured
soft-heap-limit, makes `init_heap_size_limits` report a fatal error and exit
(modelled as `none`). -/
theorem init_heap_size_limits_fatal (st : HeapLimits) (maxHeap softLimit nurserySize : Nat)
    (hconf : maxHeap ≠ 0)
    (hsmall : maxHeap < nurserySize * 4 ∨ maxHeap < softLimit) :
    init_heap_size_limits st maxHeap softLimit nurserySize = none := by
  unfold init_heap_size_limits
  split_ifs <;> first | rfl | omega

/-- Witness for `init_heap_size_limits_fatal` at a concrete configuration:
max-heap-size 100 with nursery size 512 is fatal. -/
theorem init_heap_size_limits_fatal_witness :
    init_heap_size_limits initialHeapLimits 100 0 512 = none :=
  init_heap_size_limits_fatal initialHeapLimits 100 0 512 (by decide) (Or.inl (by decide))

/-- C4, counterexample: with `allowance_target = 50`, 9 major sections of
size 10, no LOS memory, `soft_heap_limit = 100` and
`MIN_MINOR_COLLECTION_ALLOWANCE = 16`, the recomputed allowance is the
minimum allowance 16, yet `new_heap_size + allowance = 90 + 16 = 106`
exceeds the soft heap limit 100 — so the claim that the allowance never
exceeds `soft_heap_limit - current_heap_size` is false. -/
theorem allowance_soft_limit_counterexample :
    try_calculate_minor_collection_allowance 50 9 10 0 0 100 16 = 16 ∧
    9 * 10 + 0 + try_calculate_minor_collection_allowance 50 9 10 0 0 100 16 > 100 := by
  constructor
  · rfl
  · decide

/-- C4, amended: the recomputed allowance always lies between
`MIN_MINOR_COLLECTION_ALLOWANCE` and
`max (num_major_sections * section_size + los_memory_usage) MIN_ALLOWANCE`,
and the further clamp `new_heap_size + allowance ≤ soft_heap_limit` holds
whenever the soft limit leaves at least the minimum allowance of slack
(`new_heap_size + MIN_ALLOWANCE ≤ soft_heap_limit`); when it leaves less,
the allowance is exactly the minimum allowance (and may overshoot the soft
limit). -/
theorem allowance_soft_limit_clamp
    (t n s los llos soft minA : Nat) :
    minA ≤ try_calculate_minor_collection_allowance t n s los llos soft minA ∧
    try_calculate_minor_collection_allowance t n s los llos soft minA ≤
      max (n * s + los) minA ∧
    (n * s + llos + minA ≤ soft →
      n * s + llos + try_calculate_minor_collection_allowance t n s los llos soft minA ≤ soft) ∧
    (soft < n * s + llos + minA →
      try_calculate_minor_collection_allowance t n s los llos soft minA = minA) := by
  unfold try_calculate_minor_collection_allowance
  dsimp only
  split
  · split
    · omega
    · refine ⟨le_max_right _ _, ?_, ?_, ?_⟩ <;> omega
  · refine ⟨le_max_right _ _, ?_, ?_, ?_⟩ <;> omega

/-- Witness for `allowance_soft_limit_clamp`: with soft limit 120 and
`new_heap_size = 90`, slack 30 is above the minimum allowance 16 and the
clamped allowance keeps the heap below the soft limit. -/
theorem allowance_soft_limit_clamp_witness :
    16 ≤ try_calculate_minor_collection_allowance 50 9 10 0 0 120 16 ∧
    9 * 10 + 0 + try_calculate_minor_collection_allowance 50 9 10 0 0 120 16 ≤ 120 := by
  obtain ⟨h1, _, h3, _⟩ := allowance_soft_limit_clamp 50 9 10 0 0 120 16
  exact ⟨h1, h3 (by decide)⟩

/-!
## Registered roots (`mono_gc_register_root_inner`, sgen-gc.c lines
3538-3570, and `mono_gc_deregister_root`, lines 3584-3596)

A root record stores `{end_root, root_desc}` and is indexed by its start
address; there are `ROOT_TYPE_NUM = 3` tables (normal / pinned /
write-barriered).
-/

structure RootRecord where
  endRoot : Nat
  rootDesc : Nat
  deriving Repr, DecidableEq

/-- A root table keyed by the root's start address. -/
def RootTable : Type := List (Nat × RootRecord)

/-- Modelled from the spec: the hash-table primitive (`sgen-hash-table`) is
an external collaborator; a table is a finite map from start address to
root record, so lookup is association-list lookup. -/
def mono_sgen_hash_table_lookup : RootTable → Nat → Option RootRecord
  | [], _ => none
  | (k, v) :: t, key => if k = key then some v else mono_sgen_hash_table_lookup t key

/-- Modelled from the spec: `mono_sgen_hash_table_replace` stores a value
under a key, overwriting any existing entry for that key. -/
def mono_sgen_hash_table_replace (t : RootTable) (key : Nat) (v : RootRecord) : RootTable :=
  if (mono_sgen_hash_table_lookup t key).isSome then
    List.map (fun p => if p.1 = key then (key, v) else p) t
  else
    (key, v) :: t

/-- Modelled from the spec: `mono_sgen_hash_table_remove` deletes the entry
for a key (the caller first observes the removed record via lookup). -/
def mono_sgen_hash_table_remove (t : RootTable) (key : Nat) : RootTable :=
  List.filter (fun p => decide (p.1 ≠ key)) t

structure RootsState where
  rootsHash : Fin 3 → RootTable
  rootsSize : Nat

/-- The `for (i = 0; i < ROOT_TYPE_NUM; ++i)` lookup loop of
`mono_gc_register_root_inner`: the first table containing `start`, with the
record found there. -/
def findRoot (st : RootsState) (start : Nat) : Option (Fin 3 × RootRecord) :=
  match mono_sgen_hash_table_lookup (st.rootsHash 0) start with
  | some r => some (0, r)
  | none =>
    match mono_sgen_hash_table_lookup (st.rootsHash 1) start with
    | some r => some (1, r)
    | none =>
      match mono_sgen_hash_table_lookup (st.rootsHash 2) start with
      | some r => some (2, r)
      | none => none

/-- Embedding of `mono_gc_register_root_inner`.  A failed `g_assert`
(mixing a descriptor-bearing and a descriptor-free registration) is
modelled as `none`.  Address arithmetic (`start + size`,
`roots_size += size; roots_size -= old_size`) wraps modulo `2^64`. -/
def mono_gc_register_root_inner (st : RootsState) (start size descr : Nat)
    (rootType : Fin 3) : Option RootsState :=
  match findRoot st start with
  | some (i, root) =>
    let oldSize := wsub root.endRoot start
    let newRec : RootRecord := { endRoot := wadd start size, rootDesc := descr }
    if (root.rootDesc ≠ 0 ∧ descr ≠ 0) ∨ (root.rootDesc = 0 ∧ descr = 0) then
      some { rootsHash := fun j =>
               if j = i then mono_sgen_hash_table_replace (st.rootsHash i) start newRec
               else st.rootsHash j,
             rootsSize := wsub (wadd st.rootsSize size) oldSize }
    else none
  | none =>
    some { rootsHash := fun j =>
             if j = rootType then
               mono_sgen_hash_table_replace (st.rootsHash j) start
                 { endRoot := wadd start size, rootDesc := descr }
             else st.rootsHash j,
           rootsSize := wadd st.rootsSize size }

/-- `mono_gc_register_root`: dispatches to the normal (descriptor-bearing)
or pinned (conservative) table. -/
def mono_gc_register_root (st : RootsState) (start size descr : Nat) : Option RootsState :=
  mono_gc_register_root_inner st start size descr (if descr ≠ 0 then 0 else 1)

/-- `mono_gc_register_root_wbarrier`: registers in the write-barriered table. -/
def mono_gc_register_root_wbarrier (st : RootsState) (start size descr : Nat) :
    Option RootsState :=
  mono_gc_register_root_inner st start size descr 2

/-- One iteration of the `mono_gc_deregister_root` loop at root type `i`:
if the table holds `addr`, remove the record and subtract its extent from
`roots_size`. -/
def deregisterRootStep (st : RootsState) (i : Fin 3) (addr : Nat) : RootsState :=
  match mono_sgen_hash_table_lookup (st.rootsHash i) addr with
  | some root =>
    { rootsHash := fun j =>
        if j = i then mono_sgen_hash_table_remove (st.rootsHash i) addr
        else st.rootsHash j,
      rootsSize := wsub st.rootsSize (wsub root.endRoot addr) }
  | none => st

/-- Embedding of `mono_gc_deregister_root`: removes `addr` from every root
table, adjusting `roots_size` for each removal. -/
def mono_gc_deregister_root (st : RootsState) (addr : Nat) : RootsState :=
  deregisterRootStep (deregisterRootStep (deregisterRootStep st 0 addr) 1 addr) 2 addr

/-!
### Lemmas about the root hash tables
-/

theorem wsub_wadd_self (r s : Nat) : wsub (wadd r s) r = s % wordMod := by
  unfold wsub wadd wordMod at *
  omega

theorem lookup_map_update (t : List (Nat × RootRecord)) (k : Nat) (v : RootRecord)
    (h : (mono_sgen_hash_table_lookup t k).isSome) :
    mono_sgen_hash_table_lookup (t.map fun p => if p.1 = k then (k, v) else p) k = some v := by
  induction t with
  | nil => simp [mono_sgen_hash_table_lookup] at h
  | cons a t ih =>
    obtain ⟨a1, a2⟩ := a
    rw [List.map_cons]
    by_cases hk : a1 = k
    · subst hk
      rw [show ((if (a1, a2).1 = a1 then (a1, v) else (a1, a2)) = (a1, v)) from if_pos rfl]
      rw [mono_sgen_hash_table_lookup, if_pos rfl]
    · rw [show ((if (a1, a2).1 = k then (k, v) else (a1, a2)) = (a1, a2)) from if_neg hk]
      rw [mono_sgen_hash_table_lookup, if_neg hk]
      rw [mono_sgen_hash_table_lookup, if_neg hk] at h
      exact ih h

theorem lookup_map_update_ne (t : List (Nat × RootRecord)) (k : Nat) (v : RootRecord)
    (k' : Nat) (h : k' ≠ k) :
    mono_sgen_hash_table_lookup (t.map fun p => if p.1 = k then (k, v) else p) k' =
      mono_sgen_hash_table_lookup t k' := by
  induction t with
  | nil => rfl
  | cons a t ih =>
    obtain ⟨a1, a2⟩ := a
    rw [List.map_cons]
    by_cases hk : a1 = k
    · subst hk
      rw [show ((if (a1, a2).1 = a1 then (a1, v) else (a1, a2)) = (a1, v)) from if_pos rfl]
      rw [mono_sgen_hash_table_lookup, mono_sgen_hash_table_lookup]
      rw [if_neg (fun he => h he.symm), if_neg (fun he => h he.symm)]
      exact ih
    · rw [show ((if (a1, a2).1 = k then (k, v) else (a1, a2)) = (a1, a2)) from if_neg hk]
      rw [mono_sgen_hash_table_lookup, mono_sgen_hash_table_lookup]
      by_cases ha : a1 = k'
      · rw [if_pos ha, if_pos ha]
      · rw [if_neg ha, if_neg ha]
        exact ih

theorem lookup_replace_self (t : RootTable) (k : Nat) (v : RootRecord) :
    mono_sgen_hash_table_lookup (mono_sgen_hash_table_replace t k v) k = some v := by
  unfold mono_sgen_hash_table_replace
  split
  · exact lookup_map_update t k v (by assumption)
  · simp [mono_sgen_hash_table_lookup]

theorem findRoot_lookup (st : RootsState) (r : Nat) (i : Fin 3) (root : RootRecord)
    (h : findRoot st r = some (i, root)) :
    mono_sgen_hash_table_lookup (st.rootsHash i) r = some root := by
  unfold findRoot at h
  cases h0 : mono_sgen_hash_table_lookup (st.rootsHash 0) r with
  | some r0 =>
    rw [h0] at h
    simp only [Option.some.injEq, Prod.mk.injEq] at h
    obtain ⟨hi, hr⟩ := h
    subst hi; subst hr
    exact h0
  | none =>
    rw [h0] at h
    cases h1 : mono_sgen_hash_table_lookup (st.rootsHash 1) r with
    | some r1 =>
      rw [h1] at h
      simp only [Option.some.injEq, Prod.mk.injEq] at h
      obtain ⟨hi, hr⟩ := h
      subst hi; subst hr
      exact h1
    | none =>
      rw [h1] at h
      cases h2 : mono_sgen_hash_table_lookup (st.rootsHash 2) r with
      | some r2 =>
        rw [h2] at h
        simp only [Option.some.injEq, Prod.mk.injEq] at h
        obtain ⟨hi, hr⟩ := h
        subst hi; subst hr
        exact h2
      | none => rw [h2] at h; exact absurd h (by simp)

theorem lookup_replace_fresh (t : RootTable) (k : Nat) (v : RootRecord)
    (h : mono_sgen_hash_table_lookup t k = none) :
    mono_sgen_hash_table_replace t k v = (k, v) :: t := by
  unfold mono_sgen_hash_table_replace
  rw [h]
  rfl

theorem lookup_cons_self (t : RootTable) (k : Nat) (v : RootRecord) :
    mono_sgen_hash_table_lookup ((k, v) :: t) k = some v := by
  rw [mono_sgen_hash_table_lookup, if_pos rfl]

theorem deregisterRootStep_none (A : RootsState) (i : Fin 3) (r : Nat)
    (h : mono_sgen_hash_table_lookup (A.rootsHash i) r = none) :
    deregisterRootStep A i r = A := by
  unfold deregisterRootStep
  rw [h]

theorem deregisterRootStep_some (A : RootsState) (i : Fin 3) (r : Nat) (rec : RootRecord)
    (h : mono_sgen_hash_table_lookup (A.rootsHash i) r = some rec) :
    (deregisterRootStep A i r).rootsSize = wsub A.rootsSize (wsub rec.endRoot r) ∧
    ∀ j : Fin 3, j ≠ i → (deregisterRootStep A i r).rootsHash j = A.rootsHash j := by
  unfold deregisterRootStep
  rw [h]
  exact ⟨rfl, fun j hj => if_neg hj⟩

/-- `mono_gc_deregister_root` on a state whose tables hold `r` exactly once
(at index `i0`, with record `rec`) subtracts that record's extent from
`roots_size`. -/
theorem mono_gc_deregister_root_single (A : RootsState) (r : Nat) (i0 : Fin 3)
    (rec : RootRecord)
    (h : ∀ i : Fin 3, mono_sgen_hash_table_lookup (A.rootsHash i) r =
      if i = i0 then some rec else none) :
    (mono_gc_deregister_root A r).rootsSize = wsub A.rootsSize (wsub rec.endRoot r) := by
  have h0 := h 0
  have h1 := h 1
  have h2 := h 2
  fin_cases i0
  · -- i0 = 0
    simp at h0 h1 h2
    obtain ⟨hsz, hpres⟩ := deregisterRootStep_some A 0 r rec h0
    unfold mono_gc_deregister_root
    rw [deregisterRootStep_none _ 1 r (by rw [hpres 1 (by decide)]; exact h1),
        deregisterRootStep_none _ 2 r (by rw [hpres 2 (by decide)]; exact h2), hsz]
  · -- i0 = 1
    simp at h0 h1 h2
    unfold mono_gc_deregister_root
    rw [deregisterRootStep_none A 0 r h0]
    obtain ⟨hsz, hpres⟩ := deregisterRootStep_some A 1 r rec h1
    rw [deregisterRootStep_none _ 2 r (by rw [hpres 2 (by decide)]; exact h2), hsz]
  · -- i0 = 2
    simp at h0 h1 h2
    unfold mono_gc_deregister_root
    rw [deregisterRootStep_none A 0 r h0, deregisterRootStep_none A 1 r h1]
    obtain ⟨hsz, _⟩ := deregisterRootStep_some A 2 r rec h2
    exact hsz

/-- C6: registering a fresh root `r` of size `size` and then deregistering
`r` leaves the global `roots_size` counter unchanged. -/
theorem register_then_deregister_roots_size
    (st : RootsState) (r size descr : Nat) (rootType : Fin 3) (st1 : RootsState)
    (hfresh : ∀ i : Fin 3, mono_sgen_hash_table_lookup (st.rootsHash i) r = none)
    (hsize : st.rootsSize < wordMod)
    (hreg : mono_gc_register_root_inner st r size descr rootType = some st1) :
    (mono_gc_deregister_root st1 r).rootsSize = st.rootsSize := by
  have hfind : findRoot st r = none := by
    unfold findRoot
    rw [hfresh 0, hfresh 1, hfresh 2]
  unfold mono_gc_register_root_inner at hreg
  rw [hfind] at hreg
  simp only [Option.some.injEq] at hreg
  subst hreg
  rw [mono_gc_deregister_root_single _ r rootType ⟨wadd r size, descr⟩ ?hlk]
  case hlk =>
    intro i
    show mono_sgen_hash_table_lookup
      (if i = rootType then _ else st.rootsHash i) r = _
    by_cases hi : i = rootType
    · subst hi
      rw [if_pos rfl, if_pos rfl, lookup_replace_fresh _ _ _ (hfresh i), lookup_cons_self]
    · rw [if_neg hi, if_neg hi]
      exact hfresh i
  show wsub (wadd st.rootsSize size) (wsub (wadd r size) r) = st.rootsSize
  rw [wsub_wadd_self r size]
  exact wadd_wsub_cancel st.rootsSize size hsize

/-- Witness for `register_then_deregister_roots_size`: registering root 10
of size 8 in the empty state and deregistering it returns `roots_size` to 0. -/
theorem register_then_deregister_witness :
    (mono_gc_deregister_root
      { rootsHash := fun j => if j = (0 : Fin 3) then [(10, ⟨wadd 10 8, 2⟩)] else [],
        rootsSize := wadd 0 8 } 10).rootsSize = 0 := by
  exact register_then_deregister_roots_size ⟨fun _ => [], 0⟩ 10 8 2 0 _
    (fun i => rfl) (by decide) rfl

/-- C7: re-registering a start address already present in one of the three
root tables updates that record's size and descriptor in place (no record is
added or removed anywhere, other keys and other tables are untouched),
adjusts `roots_size` by the size difference, and demands that old and new
registration are both descriptor-bearing or both descriptor-free — a
mismatch fails the assertion (modelled as `none`). -/
theorem register_root_updates_in_place
    (st : RootsState) (r size descr : Nat) (rootType : Fin 3) (i : Fin 3) (root : RootRecord)
    (hfound : findRoot st r = some (i, root))
    (hnw : st.rootsSize + size < wordMod) (hre : r ≤ root.endRoot)
    (hew : root.endRoot < wordMod) (hle : root.endRoot - r ≤ st.rootsSize + size) :
    (((root.rootDesc ≠ 0 ∧ descr ≠ 0) ∨ (root.rootDesc = 0 ∧ descr = 0)) →
      ∃ st', mono_gc_register_root_inner st r size descr rootType = some st' ∧
        mono_sgen_hash_table_lookup (st'.rootsHash i) r =
          some ⟨wadd r size, descr⟩ ∧
        (∀ j : Fin 3, (st'.rootsHash j).length = (st.rootsHash j).length) ∧
        (∀ j : Fin 3, j ≠ i → st'.rootsHash j = st.rootsHash j) ∧
        (∀ k, k ≠ r → mono_sgen_hash_table_lookup (st'.rootsHash i) k =
          mono_sgen_hash_table_lookup (st.rootsHash i) k) ∧
        st'.rootsSize + (root.endRoot - r) = st.rootsSize + size) ∧
    (¬((root.rootDesc ≠ 0 ∧ descr ≠ 0) ∨ (root.rootDesc = 0 ∧ descr = 0)) →
      mono_gc_register_root_inner st r size descr rootType = none) := by
  have hlk := findRoot_lookup st r i root hfound
  unfold mono_gc_register_root_inner
  rw [hfound]
  dsimp only
  constructor
  · intro hpar
    rw [if_pos hpar]
    refine ⟨_, rfl, ?_, ?_, ?_, ?_, ?_⟩
    · show mono_sgen_hash_table_lookup
        (if i = i then mono_sgen_hash_table_replace (st.rootsHash i) r _ else _) r = _
      rw [if_pos rfl]
      exact lookup_replace_self _ _ _
    · intro j
      show (if j = i then mono_sgen_hash_table_replace (st.rootsHash i) r _ else st.rootsHash j).length = _
      by_cases hj : j = i
      · subst hj
        rw [if_pos rfl]
        unfold mono_sgen_hash_table_replace
        rw [if_pos (by rw [hlk]; rfl)]
        exact List.length_map _ _
      · rw [if_neg hj]
    · intro j hj
      show (if j = i then _ else st.rootsHash j) = st.rootsHash j
      rw [if_neg hj]
    · intro k hk
      show mono_sgen_hash_table_lookup
        (if i = i then mono_sgen_hash_table_replace (st.rootsHash i) r _ else _) k = _
      rw [if_pos rfl]
      unfold mono_sgen_hash_table_replace
      rw [if_pos (by rw [hlk]; rfl)]
      exact lookup_map_update_ne _ _ _ _ hk
    · show wsub (wadd st.rootsSize size) (wsub root.endRoot r) + (root.endRoot - r) =
        st.rootsSize + size
      unfold wsub wadd wordMod at *
      omega
  · intro hpar
    rw [if_neg hpar]

/-- Witness for `register_root_updates_in_place`: re-registering root 10
(old record `(14, desc 1)`) with size 8 and descriptor 2 succeeds. -/
theorem register_root_updates_in_place_witness :
    (mono_gc_register_root_inner
      { rootsHash := fun j => if j = (0 : Fin 3) then [(10, ⟨14, 1⟩)] else [],
        rootsSize := 4 } 10 8 2 0).isSome = true := by
  obtain ⟨h1, _⟩ := register_root_updates_in_place
    { rootsHash := fun j => if j = (0 : Fin 3) then [(10, ⟨14, 1⟩)] else [], rootsSize := 4 }
    10 8 2 0 0 ⟨14, 1⟩ rfl (by decide) (by decide) (by decide) (by decide)
  obtain ⟨st', hreg, _⟩ := h1 (Or.inl ⟨by decide, by decide⟩)
  rw [hreg]
  rfl

/-!
## Write barriers (sgen-gc.c lines 4184-4327)

The mutator-visible effects of a barrier call are modelled as an event
trace: `store ptr value` is a write of `value` into the slot `ptr`;
`record ptr` is the remembered-set recording action (the delegated
`remset.wbarrier_generic_nostore (ptr)`).  `ptr_in_nursery` and
`ptr_on_stack` are environment predicates.
-/

inductive WBEvent where
  | store (ptr value : Nat)
  | record (ptr : Nat)
  deriving Repr, DecidableEq

structure WBEnv where
  ptrInNursery : Nat → Bool
  ptrOnStack : Nat → Bool

structure WBState where
  mem : Nat → Nat
  remset : List Nat

/-- Embedding of `mono_gc_wbarrier_generic_nostore` (lines 4285-4317): if
the slot is in the nursery, on the stack, or its current content is not a
nursery pointer, the remset addition is skipped; otherwise the slot address
is recorded. -/
def mono_gc_wbarrier_generic_nostore (env : WBEnv) (st : WBState) (ptr : Nat) :
    WBState × List WBEvent :=
  if env.ptrInNursery ptr || env.ptrOnStack ptr || !env.ptrInNursery (st.mem ptr) then
    (st, [])
  else
    ({ st with remset := ptr :: st.remset }, [WBEvent.record ptr])

/-- Embedding of `mono_gc_wbarrier_generic_store` (lines 4319-4327): the
value is stored into the slot first (`*(void**)ptr = value;`), and only
then, when the value is a nursery pointer, `generic_nostore` is invoked on
the slot. -/
def mono_gc_wbarrier_generic_store (env : WBEnv) (st : WBState) (ptr value : Nat) :
    WBState × List WBEvent :=
  let st1 : WBState := { st with mem := fun a => if a = ptr then value else st.mem a }
  if env.ptrInNursery value then
    let r := mono_gc_wbarrier_generic_nostore env st1 ptr
    (r.1, WBEvent.store ptr value :: r.2)
  else
    (st1, [WBEvent.store ptr value])

/-- Concrete environment for the write-barrier counterexample: addresses
below 50 form the nursery, nothing is on the stack. -/
def wbEnvC : WBEnv := { ptrInNursery := fun a => decide (a < 50), ptrOnStack := fun _ => false }

/-- Concrete zeroed memory state. -/
def wbStC : WBState := { mem := fun _ => 0, remset := [] }

/-- C5, counterexample: storing nursery value 5 into old-generation slot 100
with `mono_gc_wbarrier_generic_store` produces the trace
`[store 100 5, record 100]` — the remembered-set recording action happens
and happens strictly after the guarded store, refuting the claimed
record-before-store order. -/
theorem wbarrier_generic_store_counterexample :
    (mono_gc_wbarrier_generic_store wbEnvC wbStC 100 5).2 =
      [WBEvent.store 100 5, WBEvent.record 100] := by
  rfl

/-- C5, amended: `mono_gc_wbarrier_generic_store` performs the store first;
the remembered-set recording follows the store, and takes place exactly when
the stored value is a nursery pointer and the slot is neither in the nursery
nor on the stack.  The slot always ends up holding the value. -/
theorem wbarrier_generic_store_order (env : WBEnv) (st : WBState) (ptr value : Nat) :
    (mono_gc_wbarrier_generic_store env st ptr value).2 =
      WBEvent.store ptr value ::
        (if !env.ptrInNursery ptr && !env.ptrOnStack ptr && env.ptrInNursery value then
          [WBEvent.record ptr] else []) ∧
    (mono_gc_wbarrier_generic_store env st ptr value).1.mem ptr = value := by
  unfold mono_gc_wbarrier_generic_store mono_gc_wbarrier_generic_nostore
  cases hv : env.ptrInNursery value <;>
    cases hp : env.ptrInNursery ptr <;>
      cases hs : env.ptrOnStack ptr <;>
        simp [hv, hp, hs]

/-!
## The gray-stack finisher (`finish_gray_stack`, sgen-gc.c lines 1926-2056)

The driver is embedded as a state machine over an abstract collector state
`σ` together with an event trace.  The helpers it calls
(`mono_sgen_drain_gray_stack`, `mark_ephemerons_in_range`,
`null_link_in_range`, `finalize_in_range`, … — the last two implemented in
the included `sgen-fin-weak-hash.c`) are abstract state transformers; the
source comment at line 1984 and the spec identify
`null_link_in_range (…, TRUE, …)` with clearing the weak links that do not
track resurrection and `(…, FALSE, …)` with the tracking ones.  Control
flow, call order and loop conditions are translated from the source.
-/

/-- `GENERATION_NURSERY` (0, from sgen-gc.h). -/
def GENERATION_NURSERY : Nat := 0

/-- `GENERATION_OLD` (1, from sgen-gc.h). -/
def GENERATION_OLD : Nat := 1

inductive FinishEvent where
  | drainGray
  | resetBridgeData
  | markEphemerons
  | scanTogglerefs
  | collectBridgeObjects (generation : Nat)
  | nullLinks (beforeFinalization : Bool) (generation : Nat)
  | finalizeInRange (generation : Nat)
  | clearUnreachableEphemerons
  deriving Repr, DecidableEq

structure FinishEnv (σ : Type) where
  drainGray : σ → σ
  resetBridgeData : σ → σ
  markEphemerons : σ → σ × Bool
  scanTogglerefs : σ → σ
  needBridgeProcessing : Bool
  collectBridgeObjects : Nat → σ → σ
  nullLinks : Bool → Nat → σ → σ
  finalizeInRange : Nat → σ → σ
  numReadyFinalizers : σ → Nat
  grayQueueIsEmpty : σ → Bool
  clearUnreachableEphemerons : σ → σ

/-- One round of `mark_ephemerons_in_range` followed by a drain. -/
def ephemeronPass {σ : Type} (env : FinishEnv σ) (s : σ) : σ × Bool :=
  let r := env.markEphemerons s
  (env.drainGray r.1, r.2)

/-- The `do { done = mark_ephemerons_in_range (…); drain; } while (!done)`
fixed-point loop (lines 1966-1971 and 2021-2026). -/
def ephemeronLoop {σ : Type} (env : FinishEnv σ) : Nat → σ → Option (σ × List FinishEvent)
  | 0, _ => none
  | fuel + 1, s =>
    let r := ephemeronPass env s
    if r.2 then some (r.1, [FinishEvent.markEphemerons, FinishEvent.drainGray])
    else
      match ephemeronLoop env fuel r.1 with
      | none => none
      | some (s3, evs) =>
        some (s3, FinishEvent.markEphemerons :: FinishEvent.drainGray :: evs)

/-- One `finalize_in_range` step; for a major collection it runs a second
time over the nursery range (lines 2003-2005). -/
def finalizePass {σ : Type} (env : FinishEnv σ) (g : Nat) (s : σ) : σ × List FinishEvent :=
  if g = GENERATION_OLD then
    (env.finalizeInRange GENERATION_NURSERY (env.finalizeInRange g s),
      [FinishEvent.finalizeInRange g, FinishEvent.finalizeInRange GENERATION_NURSERY])
  else (env.finalizeInRange g s, [FinishEvent.finalizeInRange g])

/-- One `null_link_in_range` step with the given `before_finalization`
flag; for a major collection it runs a second time with
`GENERATION_NURSERY` (lines 1988-1990 and 2047-2049). -/
def nullLinksPass {σ : Type} (env : FinishEnv σ) (before : Bool) (g : Nat) (s : σ) :
    σ × List FinishEvent :=
  if g = GENERATION_OLD then
    (env.nullLinks before GENERATION_NURSERY (env.nullLinks before g s),
      [FinishEvent.nullLinks before g, FinishEvent.nullLinks before GENERATION_NURSERY])
  else (env.nullLinks before g s, [FinishEvent.nullLinks before g])

/-- The finalization-queue loop (lines 2000-2013): remember
`fin_ready = num_ready_finalizers`, run `finalize_in_range` (twice for a
major), count the loop if new finalizers appeared, drain, repeat while the
counter changed.  Returns the final state, `num_loops` and the events. -/
def finalizeLoop {σ : Type} (env : FinishEnv σ) (g : Nat) :
    Nat → Nat → σ → Option (σ × Nat × List FinishEvent)
  | 0, _, _ => none
  | fuel + 1, numLoops, s =>
    let finReady := env.numReadyFinalizers s
    let r := finalizePass env g s
    let numLoops2 := if finReady ≠ env.numReadyFinalizers r.1 then numLoops + 1 else numLoops
    let s3 := env.drainGray r.1
    if finReady = env.numReadyFinalizers s3 then
      some (s3, numLoops2, r.2 ++ [FinishEvent.drainGray])
    else
      match finalizeLoop env g fuel numLoops2 s3 with
      | none => none
      | some (s4, numLoops3, evs) =>
        some (s4, numLoops3, (r.2 ++ [FinishEvent.drainGray]) ++ evs)

/-- The tracking-disappearing-link loop (lines 2046-2053):
`for (;;) { null_link_in_range (…, FALSE, …); if (queue empty) break;
drain; }`. -/
def trackingLinkLoop {σ : Type} (env : FinishEnv σ) (g : Nat) :
    Nat → σ → Option (σ × List FinishEvent)
  | 0, _ => none
  | fuel + 1, s =>
    let r := nullLinksPass env false g s
    if env.grayQueueIsEmpty r.1 then some (r.1, r.2)
    else
      match trackingLinkLoop env g fuel (env.drainGray r.1) with
      | none => none
      | some (s2, evs) => some (s2, r.2 ++ FinishEvent.drainGray :: evs)

/-- `mono_sgen_scan_togglerefs` (lines 1973-1975): once, and again over the
nursery range for a major collection. -/
def togglerefPass {σ : Type} (env : FinishEnv σ) (g : Nat) (s : σ) : σ × List FinishEvent :=
  if g = GENERATION_OLD then
    (env.scanTogglerefs (env.scanTogglerefs s),
      [FinishEvent.scanTogglerefs, FinishEvent.scanTogglerefs])
  else (env.scanTogglerefs s, [FinishEvent.scanTogglerefs])

/-- `collect_bridge_objects` and the following drain (lines 1977-1982), run
only when bridge processing is needed. -/
def bridgePass {σ : Type} (env : FinishEnv σ) (g : Nat) (s : σ) : σ × List FinishEvent :=
  if env.needBridgeProcessing then
    if g = GENERATION_OLD then
      (env.drainGray (env.collectBridgeObjects GENERATION_NURSERY
          (env.collectBridgeObjects g s)),
        [FinishEvent.collectBridgeObjects g,
         FinishEvent.collectBridgeObjects GENERATION_NURSERY, FinishEvent.drainGray])
    else
      (env.drainGray (env.collectBridgeObjects g s),
        [FinishEvent.collectBridgeObjects g, FinishEvent.drainGray])
  else (s, [])

/-- Embedding of `finish_gray_stack (start_addr, end_addr, generation,
queue)`.  The `g_assert`s (`num_loops <= 1` under bridge processing, line
2016, and the empty gray queue before the tracking-link loop, line 2045)
are modelled as `none`; loop fuel exhaustion is also `none`. -/
def finish_gray_stack {σ : Type} (env : FinishEnv σ) (g : Nat) (fuel : Nat) (s : σ) :
    Option (σ × List FinishEvent) :=
  let s1 := env.resetBridgeData (env.drainGray s)
  match ephemeronLoop env fuel s1 with
  | none => none
  | some (s3, ephEvs1) =>
    let tog := togglerefPass env g s3
    let br := bridgePass env g tog.1
    let nt := nullLinksPass env true g br.1
    match finalizeLoop env g fuel 0 nt.1 with
    | none => none
    | some (s7, numLoops, finEvs) =>
      if env.needBridgeProcessing ∧ numLoops > 1 then none
      else
        match ephemeronLoop env fuel s7 with
        | none => none
        | some (s8, ephEvs2) =>
          let s9 := env.clearUnreachableEphemerons s8
          if env.grayQueueIsEmpty s9 then
            match trackingLinkLoop env g fuel s9 with
            | none => none
            | some (s10, trEvs) =>
              some (s10,
                FinishEvent.drainGray :: FinishEvent.resetBridgeData ::
                  ephEvs1 ++ tog.2 ++ br.2 ++ nt.2 ++ finEvs ++ ephEvs2 ++
                    (FinishEvent.clearUnreachableEphemerons :: trEvs))
          else none

/-!
### Event characterizations of the finisher's passes and loops
-/

theorem finalizePass_events {σ : Type} (env : FinishEnv σ) (g : Nat) (s : σ) :
    (∀ e ∈ (finalizePass env g s).2, ∃ gen, e = FinishEvent.finalizeInRange gen) ∧
    FinishEvent.finalizeInRange g ∈ (finalizePass env g s).2 := by
  unfold finalizePass
  split
  · refine ⟨?_, by simp⟩
    intro e he
    simp only [List.mem_cons, List.not_mem_nil, or_false] at he
    rcases he with rfl | rfl
    · exact ⟨g, rfl⟩
    · exact ⟨GENERATION_NURSERY, rfl⟩
  · refine ⟨?_, by simp⟩
    intro e he
    simp only [List.mem_cons, List.not_mem_nil, or_false] at he
    subst he
    exact ⟨g, rfl⟩

theorem nullLinksPass_events {σ : Type} (env : FinishEnv σ) (b : Bool) (g : Nat) (s : σ) :
    (∀ e ∈ (nullLinksPass env b g s).2, ∃ gen, e = FinishEvent.nullLinks b gen) ∧
    FinishEvent.nullLinks b g ∈ (nullLinksPass env b g s).2 := by
  unfold nullLinksPass
  split
  · refine ⟨?_, by simp⟩
    intro e he
    simp only [List.mem_cons, List.not_mem_nil, or_false] at he
    rcases he with rfl | rfl
    · exact ⟨g, rfl⟩
    · exact ⟨GENERATION_NURSERY, rfl⟩
  · refine ⟨?_, by simp⟩
    intro e he
    simp only [List.mem_cons, List.not_mem_nil, or_false] at he
    subst he
    exact ⟨g, rfl⟩

theorem togglerefPass_events {σ : Type} (env : FinishEnv σ) (g : Nat) (s : σ) :
    ∀ e ∈ (togglerefPass env g s).2, e = FinishEvent.scanTogglerefs := by
  unfold togglerefPass
  split
  · intro e he
    simp only [List.mem_cons, List.not_mem_nil, or_false] at he
    rcases he with rfl | rfl <;> rfl
  · intro e he
    simp only [List.mem_cons, List.not_mem_nil, or_false] at he
    subst he
    rfl

theorem bridgePass_events {σ : Type} (env : FinishEnv σ) (g : Nat) (s : σ) :
    ∀ e ∈ (bridgePass env g s).2,
      (∃ gen, e = FinishEvent.collectBridgeObjects gen) ∨ e = FinishEvent.drainGray := by
  unfold bridgePass
  split
  · split
    · intro e he
      simp only [List.mem_cons, List.not_mem_nil, or_false] at he
      rcases he with rfl | rfl | rfl
      · exact Or.inl ⟨g, rfl⟩
      · exact Or.inl ⟨GENERATION_NURSERY, rfl⟩
      · exact Or.inr rfl
    · intro e he
      simp only [List.mem_cons, List.not_mem_nil, or_false] at he
      rcases he with rfl | rfl
      · exact Or.inl ⟨g, rfl⟩
      · exact Or.inr rfl
  · intro e he
    simp at he

theorem ephemeronLoop_events {σ : Type} (env : FinishEnv σ) :
    ∀ fuel s s' evs, ephemeronLoop env fuel s = some (s', evs) →
      (∀ e ∈ evs, e = FinishEvent.markEphemerons ∨ e = FinishEvent.drainGray) ∧
      FinishEvent.markEphemerons ∈ evs := by
  intro fuel
  induction fuel with
  | zero => intro s s' evs h; simp [ephemeronLoop] at h
  | succ n ih =>
    intro s s' evs h
    unfold ephemeronLoop at h
    dsimp only at h
    split at h
    · simp only [Option.some.injEq, Prod.mk.injEq] at h
      obtain ⟨-, hevs⟩ := h
      subst hevs
      refine ⟨?_, by simp⟩
      intro e he
      simp only [List.mem_cons, List.not_mem_nil, or_false] at he
      rcases he with rfl | rfl
      · exact Or.inl rfl
      · exact Or.inr rfl
    · cases heq : ephemeronLoop env n (ephemeronPass env s).1 with
      | none => rw [heq] at h; simp at h
      | some p =>
        obtain ⟨s3, evs0⟩ := p
        rw [heq] at h
        simp only [Option.some.injEq, Prod.mk.injEq] at h
        obtain ⟨-, hevs⟩ := h
        subst hevs
        obtain ⟨hall, -⟩ := ih _ _ _ heq
        refine ⟨?_, by simp⟩
        intro e he
        simp only [List.mem_cons] at he
        rcases he with rfl | rfl | he
        · exact Or.inl rfl
        · exact Or.inr rfl
        · exact hall e he

theorem finalizeLoop_events {σ : Type} (env : FinishEnv σ) (g : Nat) :
    ∀ fuel numLoops s s' n' evs, finalizeLoop env g fuel numLoops s = some (s', n', evs) →
      (∀ e ∈ evs, (∃ gen, e = FinishEvent.finalizeInRange gen) ∨ e = FinishEvent.drainGray) ∧
      FinishEvent.finalizeInRange g ∈ evs := by
  intro fuel
  induction fuel with
  | zero => intro numLoops s s' n' evs h; simp [finalizeLoop] at h
  | succ n ih =>
    intro numLoops s s' n' evs h
    unfold finalizeLoop at h
    dsimp only at h
    split at h
    · simp only [Option.some.injEq, Prod.mk.injEq] at h
      obtain ⟨-, -, hevs⟩ := h
      subst hevs
      constructor
      · intro e he
        rcases List.mem_append.mp he with he | he
        · exact Or.inl ((finalizePass_events env g s).1 e he)
        · simp only [List.mem_cons, List.not_mem_nil, or_false] at he
          subst he
          exact Or.inr rfl
      · exact List.mem_append.mpr (Or.inl (finalizePass_events env g s).2)
    · cases heq : finalizeLoop env g n
          (if env.numReadyFinalizers s ≠ env.numReadyFinalizers (finalizePass env g s).1 then
            numLoops + 1 else numLoops)
          (env.drainGray (finalizePass env g s).1) with
      | none => rw [heq] at h; simp at h
      | some p =>
        obtain ⟨s4, n4, evs4⟩ := p
        rw [heq] at h
        simp only [Option.some.injEq, Prod.mk.injEq] at h
        obtain ⟨-, -, hevs⟩ := h
        subst hevs
        obtain ⟨hall, -⟩ := ih _ _ _ _ _ heq
        constructor
        · intro e he
          rcases List.mem_append.mp he with he | he
          · rcases List.mem_append.mp he with he | he
            · exact Or.inl ((finalizePass_events env g s).1 e he)
            · simp only [List.mem_cons, List.not_mem_nil, or_false] at he
              subst he
              exact Or.inr rfl
          · exact hall e he
        · exact List.mem_append.mpr
            (Or.inl (List.mem_append.mpr (Or.inl (finalizePass_events env g s).2)))

theorem trackingLinkLoop_events {σ : Type} (env : FinishEnv σ) (g : Nat) :
    ∀ fuel s s' evs, trackingLinkLoop env g fuel s = some (s', evs) →
      (∀ e ∈ evs, (∃ gen, e = FinishEvent.nullLinks false gen) ∨ e = FinishEvent.drainGray) ∧
      FinishEvent.nullLinks false g ∈ evs ∧
      env.grayQueueIsEmpty s' = true := by
  intro fuel
  induction fuel with
  | zero => intro s s' evs h; simp [trackingLinkLoop] at h
  | succ n ih =>
    intro s s' evs h
    unfold trackingLinkLoop at h
    dsimp only at h
    split at h
    · rename_i hempty
      simp only [Option.some.injEq, Prod.mk.injEq] at h
      obtain ⟨hs, hevs⟩ := h
      subst hevs
      subst hs
      exact ⟨fun e he => Or.inl ((nullLinksPass_events env false g s).1 e he),
        (nullLinksPass_events env false g s).2, hempty⟩
    · cases heq : trackingLinkLoop env g n (env.drainGray (nullLinksPass env false g s).1) with
      | none => rw [heq] at h; simp at h
      | some p =>
        obtain ⟨s2, evs2⟩ := p
        rw [heq] at h
        simp only [Option.some.injEq, Prod.mk.injEq] at h
        obtain ⟨hs, hevs⟩ := h
        subst hevs
        subst hs
        obtain ⟨hall, -, hemp⟩ := ih _ _ _ heq
        refine ⟨?_, ?_, hemp⟩
        · intro e he
          rcases List.mem_append.mp he with he | he
          · exact Or.inl ((nullLinksPass_events env false g s).1 e he)
          · simp only [List.mem_cons] at he
            rcases he with rfl | he
            · exact Or.inr rfl
            · exact hall e he
        · exact List.mem_append.mpr (Or.inl (nullLinksPass_events env false g s).2)

/-- C1: in every collection (minor `g = 0` or major `g = 1`), the
`finish_gray_stack` trace splits as
`pre ++ finSeg ++ ephSeg ++ clear :: trackSeg` where: the non-tracking
link nulling happens in `pre`, before any finalization processing (`pre`
holds a `nullLinks true` event and no `finalizeInRange` and no
`nullLinks false` event); `finSeg` is the finalization-queue processing;
`ephSeg` re-runs the ephemeron fixed-point after finalization; the
tracking links are nulled only afterwards, in `trackSeg`; and the run ends
with the gray queue drained empty. -/
theorem finish_gray_stack_ordering {σ : Type} (env : FinishEnv σ) (g fuel : Nat) (s : σ)
    (sf : σ) (evs : List FinishEvent)
    (h : finish_gray_stack env g fuel s = some (sf, evs)) :
    ∃ pre finSeg ephSeg trackSeg : List FinishEvent,
      evs = pre ++ finSeg ++ ephSeg ++ (FinishEvent.clearUnreachableEphemerons :: trackSeg) ∧
      FinishEvent.nullLinks true g ∈ pre ∧
      (∀ e ∈ pre, (∀ gen, e ≠ FinishEvent.finalizeInRange gen) ∧
        (∀ gen, e ≠ FinishEvent.nullLinks false gen)) ∧
      FinishEvent.finalizeInRange g ∈ finSeg ∧
      (∀ e ∈ finSeg, (∃ gen, e = FinishEvent.finalizeInRange gen) ∨
        e = FinishEvent.drainGray) ∧
      FinishEvent.markEphemerons ∈ ephSeg ∧
      (∀ e ∈ ephSeg, e = FinishEvent.markEphemerons ∨ e = FinishEvent.drainGray) ∧
      FinishEvent.nullLinks false g ∈ trackSeg ∧
      (∀ e ∈ trackSeg, (∃ gen, e = FinishEvent.nullLinks false gen) ∨
        e = FinishEvent.drainGray) ∧
      env.grayQueueIsEmpty sf = true := by
  unfold finish_gray_stack at h
  dsimp only at h
  cases h1 : ephemeronLoop env fuel (env.resetBridgeData (env.drainGray s)) with
  | none => rw [h1] at h; simp at h
  | some p1 =>
    obtain ⟨s3, ephEvs1⟩ := p1
    rw [h1] at h
    dsimp only at h
    cases h2 : finalizeLoop env g fuel 0
        (nullLinksPass env true g (bridgePass env g (togglerefPass env g s3).1).1).1 with
    | none => rw [h2] at h; simp at h
    | some p2 =>
      obtain ⟨s7, numLoops, finEvs⟩ := p2
      rw [h2] at h
      dsimp only at h
      split at h
      · simp at h
      · cases h3 : ephemeronLoop env fuel s7 with
        | none => rw [h3] at h; simp at h
        | some p3 =>
          obtain ⟨s8, ephEvs2⟩ := p3
          rw [h3] at h
          dsimp only at h
          split at h
          · rename_i hga
            cases h4 : trackingLinkLoop env g fuel
                (env.clearUnreachableEphemerons s8) with
            | none => rw [h4] at h; simp at h
            | some p4 =>
              obtain ⟨s10, trEvs⟩ := p4
              rw [h4] at h
              simp only [Option.some.injEq, Prod.mk.injEq] at h
              obtain ⟨hsf, hevs⟩ := h
              subst hsf
              subst hevs
              obtain ⟨heph1, -⟩ := ephemeronLoop_events env fuel _ _ _ h1
              obtain ⟨hfin, hfinmem⟩ := finalizeLoop_events env g fuel _ _ _ _ _ h2
              obtain ⟨heph2, heph2mem⟩ := ephemeronLoop_events env fuel _ _ _ h3
              obtain ⟨htr, htrmem, htremp⟩ := trackingLinkLoop_events env g fuel _ _ _ h4
              have hnt := nullLinksPass_events env true g
                (bridgePass env g (togglerefPass env g s3).1).1
              have htog := togglerefPass_events env g s3
              have hbr := bridgePass_events env g (togglerefPass env g s3).1
              refine ⟨FinishEvent.drainGray :: FinishEvent.resetBridgeData ::
                  (ephEvs1 ++ (togglerefPass env g s3).2 ++
                    (bridgePass env g (togglerefPass env g s3).1).2 ++
                    (nullLinksPass env true g
                      (bridgePass env g (togglerefPass env g s3).1).1).2),
                finEvs, ephEvs2, trEvs, ?_, ?_, ?_,
                hfinmem, hfin, heph2mem, heph2, htrmem, htr, htremp⟩
              · simp only [List.cons_append, List.append_assoc]
              · exact List.mem_cons_of_mem _ (List.mem_cons_of_mem _
                  (List.mem_append.mpr (Or.inr hnt.2)))
              · intro e he
                rcases List.mem_cons.mp he with rfl | he
                · exact ⟨fun gen => by simp, fun gen => by simp⟩
                rcases List.mem_cons.mp he with rfl | he
                · exact ⟨fun gen => by simp, fun gen => by simp⟩
                rcases List.mem_append.mp he with he | he
                swap
                · obtain ⟨gen', hg⟩ := hnt.1 e he
                  subst hg
                  exact ⟨fun gen => by simp, fun gen => by simp⟩
                rcases List.mem_append.mp he with he | he
                swap
                · rcases hbr e he with ⟨gen', rfl⟩ | rfl
                  · exact ⟨fun gen => by simp, fun gen => by simp⟩
                  · exact ⟨fun gen => by simp, fun gen => by simp⟩
                rcases List.mem_append.mp he with he | he
                · rcases heph1 e he with rfl | rfl
                  · exact ⟨fun gen => by simp, fun gen => by simp⟩
                  · exact ⟨fun gen => by simp, fun gen => by simp⟩
                · have := htog e he
                  subst this
                  exact ⟨fun gen => by simp, fun gen => by simp⟩
          · simp at h

/-- Trivial concrete environment used to exercise the finisher: the
abstract collector state is `Unit`, one ephemeron round suffices, no
finalizers are pending, no bridge, and the gray queue is always empty. -/
def finishEnvTrivial : FinishEnv Unit :=
  { drainGray := id, resetBridgeData := id, markEphemerons := fun s => (s, true),
    scanTogglerefs := id, needBridgeProcessing := false,
    collectBridgeObjects := fun _ => id, nullLinks := fun _ _ => id,
    finalizeInRange := fun _ => id, numReadyFinalizers := fun _ => 0,
    grayQueueIsEmpty := fun _ => true, clearUnreachableEphemerons := id }

/-- Witness for `finish_gray_stack_ordering`: the finisher run on the
trivial environment for a minor collection succeeds and its trace admits
the required decomposition. -/
theorem finish_gray_stack_ordering_witness :
    ∃ pre finSeg ephSeg trackSeg : List FinishEvent,
      (FinishEvent.drainGray :: FinishEvent.resetBridgeData ::
        FinishEvent.markEphemerons :: FinishEvent.drainGray ::
        FinishEvent.scanTogglerefs :: FinishEvent.nullLinks true GENERATION_NURSERY ::
        FinishEvent.finalizeInRange GENERATION_NURSERY :: FinishEvent.drainGray ::
        FinishEvent.markEphemerons :: FinishEvent.drainGray ::
        FinishEvent.clearUnreachableEphemerons ::
        [FinishEvent.nullLinks false GENERATION_NURSERY]) =
        pre ++ finSeg ++ ephSeg ++ (FinishEvent.clearUnreachableEphemerons :: trackSeg) ∧
      FinishEvent.nullLinks true GENERATION_NURSERY ∈ pre ∧
      (∀ e ∈ pre, (∀ gen, e ≠ FinishEvent.finalizeInRange gen) ∧
        (∀ gen, e ≠ FinishEvent.nullLinks false gen)) ∧
      FinishEvent.finalizeInRange GENERATION_NURSERY ∈ finSeg ∧
      (∀ e ∈ finSeg, (∃ gen, e = FinishEvent.finalizeInRange gen) ∨
        e = FinishEvent.drainGray) ∧
      FinishEvent.markEphemerons ∈ ephSeg ∧
      (∀ e ∈ ephSeg, e = FinishEvent.markEphemerons ∨ e = FinishEvent.drainGray) ∧
      FinishEvent.nullLinks false GENERATION_NURSERY ∈ trackSeg ∧
      (∀ e ∈ trackSeg, (∃ gen, e = FinishEvent.nullLinks false gen) ∨
        e = FinishEvent.drainGray) ∧
      finishEnvTrivial.grayQueueIsEmpty () = true :=
  finish_gray_stack_ordering finishEnvTrivial GENERATION_NURSERY 1 () () _ rfl

/-!
## Minor collection driver (`collect_nursery`, sgen-gc.c lines 2535-2756)

The globals of sgen-gc.c that the driver reads or writes are collected in
`GcGlobals`; every collaborator call is an event applied through an
abstract environment transformer (the collaborators may update the
globals — e.g. the copy machinery bumps `objects_pinned` via
`mono_sgen_pin_object` on evacuation failure).  Calls guarded by debug
knobs (`xdomain_checks`, `consistency_check_at_minor_collection`,
`heap_dump_file`) and pure logging / timing / profiler calls are omitted.
-/

structure GcGlobals where
  disableMinorCollections : Bool
  degradedMode : Nat
  objectsPinned : Nat
  bytesPinnedFromFailedAllocation : Nat
  minorCollectionAllowance : Nat
  minorCollectionSectionsAlloced : Nat
  losMemoryUsage : Nat
  lastCollectionLosMemoryUsage : Nat
  maxHeapSize : Nat
  allocatedHeap : Nat
  currentCollectionGeneration : Int
  deriving Repr, DecidableEq

/-- `available_free_space` (lines 577-581). -/
def available_free_space (g : GcGlobals) : Nat :=
  g.maxHeapSize - min g.allocatedHeap g.maxHeapSize

/-- Embedding of `need_major_collection` (lines 2384-2390):
`los_alloced = los_memory_usage - MIN (last_collection_los_memory_usage,
los_memory_usage)`, and a major is due when the requested space exceeds the
free space or the sections and LOS bytes allocated since the last major
exceed the minor collection allowance. -/
def need_major_collection (g : GcGlobals) (sectionSize spaceNeeded : Nat) : Bool :=
  let losAlloced := g.losMemoryUsage - min g.lastCollectionLosMemoryUsage g.losMemoryUsage
  decide (spaceNeeded > available_free_space g) ||
    decide (g.minorCollectionSectionsAlloced * sectionSize + losAlloced >
      g.minorCollectionAllowance)

inductive NurseryEvent where
  | verifyNursery
  | clearNurseryFragment
  | startNurseryCollection
  | tryCalculateAllowance
  | initGrayQueue
  | initWorkersDistributeGrayQueue
  | prepareForMinorCollection
  | processFinStageEntries
  | processDislinkStageEntries
  | initPinning
  | pinFromRoots
  | optimizePinQueue
  | pinningSetupSection
  | pinObjectsInSection
  | startAllWorkers
  | beginScanRemsets
  | startMarking
  | enqueueFinishRememberedSetScan
  | drainGrayStack
  | enqueueScanRegisteredRootsNormal
  | enqueueScanRegisteredRootsWbarrier
  | enqueueScanThreadData
  | workersJoin
  | finishGrayStackCall
  | workersResetData
  | buildNurseryFragments
  | clearTlabs
  | finishNurseryCollection
  | finishPinning
  | finalizeNotify
  | pinStatsReset
  | finishMinorCollection
  | checkScanStarts
  | flushBuffers
  deriving Repr, DecidableEq

structure MinorEnv (σ : Type) where
  sectionSize : Nat
  isParallel : Bool
  hasPrepareForMinorCollection : Bool
  hasBeginScanRemsets : Bool
  hasFinishMinorCollection : Bool
  phase : NurseryEvent → GcGlobals × σ → GcGlobals × σ
  buildNurseryFragments : GcGlobals × σ → (GcGlobals × σ) × Nat
  finReadyPending : GcGlobals × σ → Bool

/-- Apply the collaborator transformer for each event in order. -/
def runPhases {σ : Type} (env : MinorEnv σ) (evs : List NurseryEvent)
    (st : GcGlobals × σ) : GcGlobals × σ :=
  evs.foldl (fun st e => env.phase e st) st

structure MinorResult (σ : Type) where
  ret : Bool
  finalState : GcGlobals × σ
  preReturnState : GcGlobals × σ
  trace : List NurseryEvent

/-- Embedding of `collect_nursery`.  `preReturnState` is the state at line
2751 where `needs_major = need_major_collection (0) || objects_pinned` is
evaluated, before `objects_pinned` is cleared and
`current_collection_generation` reset. -/
def collect_nursery {σ : Type} (env : MinorEnv σ) (st0 : GcGlobals × σ) : MinorResult σ :=
  if st0.1.disableMinorCollections then
    { ret := true, finalState := st0, preReturnState := st0, trace := [] }
  else
    let st1 := runPhases env [NurseryEvent.verifyNursery] st0
    let st2 : GcGlobals × σ :=
      ({ st1.1 with
          currentCollectionGeneration := Int.ofNat GENERATION_NURSERY
          bytesPinnedFromFailedAllocation := 0
          degradedMode := 0
          objectsPinned := 0 }, st1.2)
    let evs2 : List NurseryEvent :=
      [NurseryEvent.clearNurseryFragment, NurseryEvent.startNurseryCollection,
       NurseryEvent.tryCalculateAllowance, NurseryEvent.initGrayQueue,
       NurseryEvent.initWorkersDistributeGrayQueue] ++
      (if env.hasPrepareForMinorCollection then [NurseryEvent.prepareForMinorCollection]
       else []) ++
      [NurseryEvent.processFinStageEntries, NurseryEvent.processDislinkStageEntries,
       NurseryEvent.initPinning, NurseryEvent.pinFromRoots, NurseryEvent.optimizePinQueue,
       NurseryEvent.pinningSetupSection, NurseryEvent.pinObjectsInSection,
       NurseryEvent.startAllWorkers] ++
      (if env.hasBeginScanRemsets then [NurseryEvent.beginScanRemsets] else []) ++
      [NurseryEvent.startMarking, NurseryEvent.enqueueFinishRememberedSetScan] ++
      (if env.isParallel then [] else [NurseryEvent.drainGrayStack]) ++
      [NurseryEvent.enqueueScanRegisteredRootsNormal,
       NurseryEvent.enqueueScanRegisteredRootsWbarrier,
       NurseryEvent.enqueueScanThreadData, NurseryEvent.workersJoin,
       NurseryEvent.finishGrayStackCall, NurseryEvent.workersResetData]
    let st5 := runPhases env evs2 st2
    let r3 : (GcGlobals × σ) × List NurseryEvent :=
      if st5.1.objectsPinned ≠ 0 then
        (runPhases env [NurseryEvent.optimizePinQueue, NurseryEvent.pinningSetupSection] st5,
          [NurseryEvent.optimizePinQueue, NurseryEvent.pinningSetupSection])
      else (st5, [])
    let rb := env.buildNurseryFragments r3.1
    let st7 : GcGlobals × σ :=
      if rb.2 = 0 then ({ rb.1.1 with degradedMode := 1 }, rb.1.2) else rb.1
    let evs5 : List NurseryEvent :=
      [NurseryEvent.clearTlabs, NurseryEvent.finishNurseryCollection,
       NurseryEvent.finishPinning] ++
      (if env.finReadyPending st7 then [NurseryEvent.finalizeNotify] else []) ++
      [NurseryEvent.pinStatsReset] ++
      (if env.hasFinishMinorCollection then [NurseryEvent.finishMinorCollection] else []) ++
      [NurseryEvent.checkScanStarts, NurseryEvent.flushBuffers]
    let st8 := runPhases env evs5 st7
    let needsMajor :=
      need_major_collection st8.1 env.sectionSize 0 || decide (st8.1.objectsPinned ≠ 0)
    { ret := needsMajor,
      finalState := ({ st8.1 with currentCollectionGeneration := -1, objectsPinned := 0 },
        st8.2),
      preReturnState := st8,
      trace := [NurseryEvent.verifyNursery] ++ evs2 ++ r3.2 ++
        [NurseryEvent.buildNurseryFragments] ++ evs5 }

/-- C3: when minor collections are not disabled, `collect_nursery` returns
`true` exactly when, at the return point, the allowance heuristic
(`need_major_collection (0)`) reports a major is due or some object was
pinned during the collection (`objects_pinned`, set by
`mono_sgen_pin_object` when evacuation fails). -/
theorem collect_nursery_return {σ : Type} (env : MinorEnv σ) (st0 : GcGlobals × σ)
    (h : st0.1.disableMinorCollections = false) :
    (collect_nursery env st0).ret =
      (need_major_collection (collect_nursery env st0).preReturnState.1 env.sectionSize 0 ||
        decide ((collect_nursery env st0).preReturnState.1.objectsPinned ≠ 0)) := by
  unfold collect_nursery
  rw [h]
  rfl

/-- C10: with the `disable-minor` debug knob set, `collect_nursery` returns
`true` immediately: no phase runs (empty trace) and neither the collector
globals nor the abstract heap state change. -/
theorem collect_nursery_disabled {σ : Type} (env : MinorEnv σ) (st0 : GcGlobals × σ)
    (h : st0.1.disableMinorCollections = true) :
    (collect_nursery env st0).ret = true ∧
    (collect_nursery env st0).finalState = st0 ∧
    (collect_nursery env st0).trace = [] := by
  unfold collect_nursery
  rw [h]
  exact ⟨rfl, rfl, rfl⟩

/-- Concrete globals for the `collect_nursery` witnesses. -/
def gcGlobalsC (dis : Bool) : GcGlobals :=
  { disableMinorCollections := dis, degradedMode := 0, objectsPinned := 0,
    bytesPinnedFromFailedAllocation := 0, minorCollectionAllowance := 100,
    minorCollectionSectionsAlloced := 0, losMemoryUsage := 0,
    lastCollectionLosMemoryUsage := 0, maxHeapSize := 1000, allocatedHeap := 0,
    currentCollectionGeneration := -1 }

/-- Concrete trivial environment for the `collect_nursery` witnesses. -/
def minorEnvC : MinorEnv Unit :=
  { sectionSize := 16, isParallel := false, hasPrepareForMinorCollection := true,
    hasBeginScanRemsets := true, hasFinishMinorCollection := true,
    phase := fun _ st => st, buildNurseryFragments := fun st => (st, 32),
    finReadyPending := fun _ => false }

/-- Witness for `collect_nursery_return` on a concrete quiet heap: no major
is needed and nothing was pinned, and indeed the returned value is false. -/
theorem collect_nursery_return_witness :
    (collect_nursery minorEnvC (gcGlobalsC false, ())).ret =
      (need_major_collection
          (collect_nursery minorEnvC (gcGlobalsC false, ())).preReturnState.1 16 0 ||
        decide ((collect_nursery minorEnvC
          (gcGlobalsC false, ())).preReturnState.1.objectsPinned ≠ 0)) :=
  collect_nursery_return minorEnvC (gcGlobalsC false, ()) rfl

/-- Witness for `collect_nursery_disabled` at a concrete state. -/
theorem collect_nursery_disabled_witness :
    (collect_nursery minorEnvC (gcGlobalsC true, ())).ret = true ∧
    (collect_nursery minorEnvC (gcGlobalsC true, ())).finalState = (gcGlobalsC true, ()) ∧
    (collect_nursery minorEnvC (gcGlobalsC true, ())).trace = [] :=
  collect_nursery_disabled minorEnvC (gcGlobalsC true, ()) rfl

/-!
## Pinning candidates to objects (`pin_objects_from_addresses`, sgen-gc.c
lines 1239-1334)

The nursery memory is abstracted by three observation functions: the first
word at an (aligned) address (`*(void**)p`, null in unused zeroed gaps),
the object size `safe_object_get_size` and the fragment-placeholder test
(`synchronisation == GINT_TO_POINTER (-1)`).  `SGEN_ALIGN_UP` is
`(x + ALLOC_ALIGN - 1) & ~(ALLOC_ALIGN - 1)`, written here in its
arithmetic form (`ALLOC_ALIGN` is a power of two in the source).
The object layout of the section is described by a list of `Block`s (the
objects and fragment placeholders, in address order) that the
well-formedness predicate `PinWF` ties to the observation functions,
following the section invariants of the data model.
-/

structure NurseryHeap where
  word : Nat → Nat
  objSize : Nat → Nat
  isFrag : Nat → Bool

structure GCMemSection where
  data : Nat
  scanStarts : List (Option Nat)

structure PinConfig where
  align : Nat
  ptrSize : Nat
  scanStartSize : Nat

def alignUp (cfg : PinConfig) (x : Nat) : Nat :=
  ((x + cfg.align - 1) / cfg.align) * cfg.align

/-- Result of the inner object walk: the updated `last_obj`,
`last_obj_size` and the pinned object, if one was found. -/
structure WalkRes where
  lastObj : Nat
  lastObjSize : Nat
  pinned : Option Nat
  deriving Repr, DecidableEq

/-- The inner `do { … } while (search_start <= addr)` walk of
`pin_objects_from_addresses` (lines 1282-1316): skip null words by
`ALIGN_UP (search_start + sizeof (gpointer))`, read the object at
`search_start`, skip fragment placeholders, pin when
`addr ∈ [search_start, last_obj + last_obj_size)`, otherwise advance by the
aligned object size. -/
def pinWalk (h : NurseryHeap) (cfg : PinConfig) (addr : Nat) :
    Nat → Nat → Nat → Nat → Option WalkRes
  | 0, _, _, _ => none
  | fuel + 1, searchStart, lastObj, lastObjSize =>
    if h.word searchStart = 0 then
      let s2 := alignUp cfg (searchStart + cfg.ptrSize)
      if s2 ≤ addr then pinWalk h cfg addr fuel s2 lastObj lastObjSize
      else some ⟨lastObj, lastObjSize, none⟩
    else
      let los := alignUp cfg (h.objSize searchStart)
      if h.isFrag searchStart then
        let s2 := searchStart + los
        if s2 ≤ addr then pinWalk h cfg addr fuel s2 searchStart los
        else some ⟨searchStart, los, none⟩
      else if searchStart ≤ addr ∧ addr < searchStart + los then
        some ⟨searchStart, los, some searchStart⟩
      else
        let s2 := searchStart + los
        if s2 ≤ addr then pinWalk h cfg addr fuel s2 searchStart los
        else some ⟨searchStart, los, none⟩

/-- The backward scan over earlier scan-start entries (lines 1267-1272):
`while (idx) { --idx; search_start = scan_starts [idx];
if (search_start && search_start <= addr) break; }`. -/
def backwardScanStart (sec : GCMemSection) (addr : Nat) : Nat → Option Nat
  | 0 => none
  | idx + 1 =>
    match sec.scanStarts.getD idx none with
    | some p => if p ≤ addr then some p else backwardScanStart sec addr idx
    | none => backwardScanStart sec addr idx

/-- The scan-start anchor for a candidate (lines 1265-1275): the chunk's
scan-start if non-null and not past `addr`, else the nearest earlier
non-null scan-start not past `addr`, else `start_nursery`. -/
def findSearchStart (sec : GCMemSection) (addr startNursery idx : Nat) : Nat :=
  match sec.scanStarts.getD idx none with
  | some p => if p ≤ addr then p else (backwardScanStart sec addr idx).getD startNursery
  | none => (backwardScanStart sec addr idx).getD startNursery

/-- The mutable locals of the outer loop over the candidate array; the
`definitely_pinned` prefix written into the array is `pinnedObjs` (in write
order) and the gray queue additions are `grayQueue`. -/
structure PinState where
  last : Nat
  lastObj : Nat
  lastObjSize : Nat
  pinnedObjs : List Nat
  grayQueue : List Nat
  deriving Repr, DecidableEq

/-- Initial locals: `last = NULL; last_obj = NULL; last_obj_size = 0;
count = 0`. -/
def initPinState : PinState :=
  { last := 0, lastObj := 0, lastObjSize := 0, pinnedObjs := [], grayQueue := [] }

/-- Embedding of `pin_objects_from_addresses (section, start, end,
start_nursery, end_nursery, queue)`: the candidate array is the list
`cands`; the `g_assert (idx < section->num_scan_start)` is modelled as
`none`, as is walk fuel exhaustion. -/
def pin_objects_from_addresses (h : NurseryHeap) (cfg : PinConfig) (sec : GCMemSection)
    (startN endN fuel : Nat) : List Nat → PinState → Option PinState
  | [], st => some st
  | addr :: rest, st =>
    if addr ≠ st.last ∧ startN ≤ addr ∧ addr < endN then
      if st.lastObj ≤ addr ∧ addr < st.lastObj + st.lastObjSize then
        pin_objects_from_addresses h cfg sec startN endN fuel rest st
      else
        let idx := (addr - sec.data) / cfg.scanStartSize
        if idx < sec.scanStarts.length then
          let ss0 := findSearchStart sec addr startN idx
          let ss1 := if ss0 < st.lastObj then st.lastObj + st.lastObjSize else ss0
          match pinWalk h cfg addr fuel ss1 st.lastObj st.lastObjSize with
          | none => none
          | some w =>
            pin_objects_from_addresses h cfg sec startN endN fuel rest
              { last := addr
                lastObj := w.lastObj
                lastObjSize := w.lastObjSize
                pinnedObjs := st.pinnedObjs ++ w.pinned.toList
                grayQueue := st.grayQueue ++ w.pinned.toList }
        else none
    else
      pin_objects_from_addresses h cfg sec startN endN fuel rest st

/-!
### The specification side (§4.2 of the spec)
-/

/-- A block of the section layout: an object or fragment placeholder with
its start address and walked (aligned) size. -/
structure Block where
  start : Nat
  size : Nat
  isFrag : Bool
  deriving Repr, DecidableEq

def inBlock (b : Block) (p : Nat) : Prop := b.start ≤ p ∧ p < b.start + b.size

instance (b : Block) (p : Nat) : Decidable (inBlock b p) := by
  unfold inBlock
  infer_instance

/-- The block whose `[start, start + size)` extent contains `addr`. -/
def containingBlock (blocks : List Block) (addr : Nat) : Option Block :=
  blocks.find? (fun b => decide (inBlock b addr))

/-- The resolution of one candidate, as the spec words it: the object
containing the candidate is pinned; a fragment-fill placeholder or a gap
pins nothing. -/
def specPinnedObject (blocks : List Block) (addr : Nat) : Option Nat :=
  match containingBlock blocks addr with
  | some b => if b.isFrag then none else some b.start
  | none => none

/-- Collapse runs of consecutive equal values (multiple sorted candidates
inside one object pin it once). -/
def dedupConsec : List Nat → List Nat
  | [] => []
  | [a] => [a]
  | a :: b :: t => if a = b then dedupConsec (b :: t) else a :: dedupConsec (b :: t)

/-- The pinned objects a sorted candidate list should produce, in order. -/
def specPinnedList (blocks : List Block) (cands : List Nat) : List Nat :=
  dedupConsec (cands.filterMap (specPinnedObject blocks))

/-- Well-formedness of a section: the block layout tiles the section
(blocks in address order, pairwise disjoint, aligned, positive walked
sizes), the heap observations agree with the layout (object starts have a
non-null header word, aligned gap addresses read zero, sizes and fragment
flags match), and the scan-start invariant (each non-null entry points to a
block start; the index of every in-range address is within the table). -/
structure PinWF (h : NurseryHeap) (cfg : PinConfig) (sec : GCMemSection)
    (startN endN : Nat) (blocks : List Block) : Prop where
  alignPos : 0 < cfg.align
  ptrPos : 0 < cfg.ptrSize
  ptrLe : cfg.ptrSize ≤ cfg.align
  startPos : 0 < startN
  startData : startN = sec.data
  dataAligned : cfg.align ∣ sec.data
  blockAligned : ∀ b ∈ blocks, cfg.align ∣ b.start
  sizeAligned : ∀ b ∈ blocks, alignUp cfg (h.objSize b.start) = b.size
  sizePos : ∀ b ∈ blocks, 0 < b.size
  blocksLB : ∀ b ∈ blocks, sec.data ≤ b.start
  ordered : blocks.Pairwise (fun a b => a.start + a.size ≤ b.start)
  wordBlock : ∀ b ∈ blocks, h.word b.start ≠ 0
  wordGap : ∀ p, p < endN → cfg.align ∣ p → (∀ b ∈ blocks, ¬ inBlock b p) → h.word p = 0
  fragMatches : ∀ b ∈ blocks, h.isFrag b.start = b.isFrag
  scanStartsValid : ∀ i p, sec.scanStarts.getD i none = some p → ∃ b ∈ blocks, b.start = p
  scanLen : ∀ a, a < endN → (a - sec.data) / cfg.scanStartSize < sec.scanStarts.length

/-- An address a walk may stand on: a block start, or a gap address
(inside no block). -/
def walkable (blocks : List Block) (p : Nat) : Prop :=
  (∃ b ∈ blocks, b.start = p) ∨ (∀ b ∈ blocks, ¬ inBlock b p)

/-!
### Alignment, dedup and layout lemmas
-/

theorem alignUp_ge (cfg : PinConfig) (x : Nat) (h : 0 < cfg.align) :
    x ≤ alignUp cfg x := by
  unfold alignUp
  have h1 := Nat.div_add_mod (x + cfg.align - 1) cfg.align
  have h2 := Nat.mod_lt (x + cfg.align - 1) h
  have h3 : ((x + cfg.align - 1) / cfg.align) * cfg.align =
      cfg.align * ((x + cfg.align - 1) / cfg.align) := Nat.mul_comm _ _
  omega

theorem alignUp_dvd (cfg : PinConfig) (x : Nat) : cfg.align ∣ alignUp cfg x :=
  ⟨(x + cfg.align - 1) / cfg.align, by unfold alignUp; ring⟩

theorem alignUp_add_ptr (cfg : PinConfig) (s : Nat) (ha : 0 < cfg.align)
    (hp : 0 < cfg.ptrSize) (hpa : cfg.ptrSize ≤ cfg.align) (hd : cfg.align ∣ s) :
    alignUp cfg (s + cfg.ptrSize) = s + cfg.align := by
  obtain ⟨k, hk⟩ := hd
  subst hk
  unfold alignUp
  have hm : (cfg.align * k + cfg.ptrSize + cfg.align - 1) =
      cfg.align * k + (cfg.ptrSize + cfg.align - 1) := by omega
  rw [hm, Nat.mul_add_div ha]
  have hdiv : (cfg.ptrSize + cfg.align - 1) / cfg.align = 1 := by
    apply Nat.div_eq_of_lt_le <;> omega
  rw [hdiv]
  ring

theorem dedupConsec_append_last (l : List Nat) (v : Nat) :
    dedupConsec (l ++ [v]) =
      if l.getLast? = some v then dedupConsec l else dedupConsec l ++ [v] := by
  induction l with
  | nil => simp [dedupConsec]
  | cons a t ih =>
    cases t with
    | nil =>
      by_cases hav : a = v
      · subst hav
        simp [dedupConsec]
      · simp [dedupConsec, hav]
    | cons b t2 =>
      have hlast : (a :: b :: t2).getLast? = (b :: t2).getLast? := by
        simp [List.getLast?]
      have hstep : dedupConsec (a :: b :: (t2 ++ [v])) =
          if a = b then dedupConsec (b :: (t2 ++ [v]))
          else a :: dedupConsec (b :: (t2 ++ [v])) := by
        rw [dedupConsec]
      have hstep2 : dedupConsec (a :: b :: t2) =
          if a = b then dedupConsec (b :: t2) else a :: dedupConsec (b :: t2) := by
        rw [dedupConsec]
      have hih : dedupConsec (b :: (t2 ++ [v])) =
          if (b :: t2).getLast? = some v then dedupConsec (b :: t2)
          else dedupConsec (b :: t2) ++ [v] := by
        simpa using ih
      rw [List.cons_append, List.cons_append, hstep, hstep2, hih, hlast]
      by_cases hab : a = b <;> by_cases hv : (b :: t2).getLast? = some v <;>
        simp [hab, hv]

theorem dedupConsec_length_le (l : List Nat) : (dedupConsec l).length ≤ l.length := by
  induction l with
  | nil => simp [dedupConsec]
  | cons a t ih =>
    cases t with
    | nil => simp [dedupConsec]
    | cons b t2 =>
      rw [dedupConsec]
      split
      · exact Nat.le_trans ih (by simp)
      · simpa using Nat.succ_le_succ ih

theorem dedupConsec_head (b : Nat) (l : List Nat) :
    (dedupConsec (b :: l)).head? = some b := by
  induction l generalizing b with
  | nil => rfl
  | cons c t ih =>
    rw [dedupConsec]
    split
    · rename_i hbc
      rw [ih c, hbc]
    · rfl

theorem dedupConsec_chain_lt (l : List Nat) (h : List.Chain' (· ≤ ·) l) :
    List.Chain' (· < ·) (dedupConsec l) := by
  induction l with
  | nil => simp [dedupConsec]
  | cons a t ih =>
    cases t with
    | nil => simp [dedupConsec]
    | cons b t2 =>
      rw [dedupConsec]
      obtain ⟨hab, hrest⟩ := List.chain'_cons.mp h
      split
      · exact ih hrest
      · rename_i hne
        have hlt : a < b := lt_of_le_of_ne hab hne
        refine List.chain'_cons'.mpr ⟨?_, ih hrest⟩
        intro y hy
        rw [dedupConsec_head b t2] at hy
        cases hy
        exact hlt

theorem pairwise_mem_rel {α : Type} {R : α → α → Prop} {a b : α} :
    ∀ {l : List α}, l.Pairwise R → a ∈ l → b ∈ l →
      a = b ∨ R a b ∨ R b a := by
  intro l
  induction l with
  | nil => intro _ ha _; cases ha
  | cons hd tl ih =>
    intro hp ha hb
    obtain ⟨hhd, htl⟩ := List.pairwise_cons.mp hp
    rcases List.mem_cons.mp ha with ha1 | ha1
    · rcases List.mem_cons.mp hb with hb1 | hb1
      · exact Or.inl (ha1.trans hb1.symm)
      · exact Or.inr (Or.inl (by rw [ha1]; exact hhd b hb1))
    · rcases List.mem_cons.mp hb with hb1 | hb1
      · exact Or.inr (Or.inr (by rw [hb1]; exact hhd a ha1))
      · exact ih htl ha1 hb1

theorem inBlock_unique {blocks : List Block}
    (hp : blocks.Pairwise (fun a b => a.start + a.size ≤ b.start))
    {b1 b2 : Block} {p : Nat} (h1 : b1 ∈ blocks) (h2 : b2 ∈ blocks)
    (hin1 : inBlock b1 p) (hin2 : inBlock b2 p) : b1 = b2 := by
  rcases pairwise_mem_rel hp h1 h2 with h | h | h
  · exact h
  · exfalso
    unfold inBlock at hin1 hin2
    omega
  · exfalso
    unfold inBlock at hin1 hin2
    omega

theorem blockStart_unique {blocks : List Block}
    (hp : blocks.Pairwise (fun a b => a.start + a.size ≤ b.start))
    (hsz : ∀ b ∈ blocks, 0 < b.size)
    {b1 b2 : Block} (h1 : b1 ∈ blocks) (h2 : b2 ∈ blocks)
    (he : b1.start = b2.start) : b1 = b2 := by
  have hin1 : inBlock b1 b1.start := ⟨le_refl _, by have := hsz b1 h1; omega⟩
  have hin2 : inBlock b2 b1.start := ⟨by omega, by have := hsz b2 h2; omega⟩
  exact inBlock_unique hp h1 h2 hin1 hin2

theorem containingBlock_eq_some {blocks : List Block}
    (hp : blocks.Pairwise (fun a b => a.start + a.size ≤ b.start))
    {b : Block} {addr : Nat} (hb : b ∈ blocks) (hin : inBlock b addr) :
    containingBlock blocks addr = some b := by
  induction blocks with
  | nil => cases hb
  | cons hd tl ih =>
    obtain ⟨hhd, htl⟩ := List.pairwise_cons.mp hp
    unfold containingBlock
    by_cases hhdin : inBlock hd addr
    · rw [List.find?_cons_of_pos _ (by simpa using hhdin)]
      have hbe : b = hd := by
        rcases List.mem_cons.mp hb with hb1 | hbtl
        · exact hb1
        · exact inBlock_unique hp hb (List.mem_cons_self hd tl) hin hhdin
      rw [hbe]
    · rw [List.find?_cons_of_neg _ (by simpa using hhdin)]
      rcases List.mem_cons.mp hb with hb1 | hbtl
      · exact absurd (hb1 ▸ hin) hhdin
      · exact ih htl hbtl

theorem containingBlock_eq_none {blocks : List Block} {addr : Nat}
    (h : ∀ b ∈ blocks, ¬ inBlock b addr) :
    containingBlock blocks addr = none := by
  unfold containingBlock
  exact List.find?_eq_none.mpr (fun b hb => by simpa using h b hb)

theorem specPinnedObject_of_gap {blocks : List Block} {addr : Nat}
    (h : ∀ b ∈ blocks, ¬ inBlock b addr) :
    specPinnedObject blocks addr = none := by
  unfold specPinnedObject
  rw [containingBlock_eq_none h]

theorem specPinnedObject_of_frag {blocks : List Block}
    (hp : blocks.Pairwise (fun a b => a.start + a.size ≤ b.start))
    {b : Block} {addr : Nat} (hb : b ∈ blocks) (hin : inBlock b addr)
    (hf : b.isFrag = true) :
    specPinnedObject blocks addr = none := by
  unfold specPinnedObject
  rw [containingBlock_eq_some hp hb hin]
  simp [hf]

theorem specPinnedObject_of_object {blocks : List Block}
    (hp : blocks.Pairwise (fun a b => a.start + a.size ≤ b.start))
    {b : Block} {addr : Nat} (hb : b ∈ blocks) (hin : inBlock b addr)
    (hf : b.isFrag = false) :
    specPinnedObject blocks addr = some b.start := by
  unfold specPinnedObject
  rw [containingBlock_eq_some hp hb hin]
  simp [hf]

/-- The containing-block start is monotone over candidates. -/
theorem specPinnedObject_mono {blocks : List Block}
    (hp : blocks.Pairwise (fun a b => a.start + a.size ≤ b.start))
    {a a' v v' : Nat} (hle : a ≤ a')
    (hv : specPinnedObject blocks a = some v)
    (hv' : specPinnedObject blocks a' = some v') : v ≤ v' := by
  unfold specPinnedObject at hv hv'
  cases hc : containingBlock blocks a with
  | none => rw [hc] at hv; cases hv
  | some b =>
    rw [hc] at hv
    cases hc' : containingBlock blocks a' with
    | none => rw [hc'] at hv'; cases hv'
    | some b' =>
      rw [hc'] at hv'
      have hbmem : b ∈ blocks ∧ inBlock b a := by
        have := List.find?_some hc
        exact ⟨List.mem_of_find?_eq_some hc, by simpa using this⟩
      have hbmem' : b' ∈ blocks ∧ inBlock b' a' := by
        have := List.find?_some hc'
        exact ⟨List.mem_of_find?_eq_some hc', by simpa using this⟩
      have hvb : v = b.start := by
        by_cases hf : b.isFrag <;> simp [hf] at hv
        exact hv.symm
      have hvb' : v' = b'.start := by
        by_cases hf : b'.isFrag <;> simp [hf] at hv'
        exact hv'.symm
      subst hvb
      subst hvb'
      rcases pairwise_mem_rel hp hbmem.1 hbmem'.1 with rfl | h | h
      · exact le_refl _
      · obtain ⟨h1, h2⟩ := hbmem.2
        omega
      · obtain ⟨h1, h2⟩ := hbmem.2
        obtain ⟨h3, h4⟩ := hbmem'.2
        omega

theorem aligned_gap_next {cfg : PinConfig} {s t : Nat} (hs : cfg.align ∣ s)
    (ht : cfg.align ∣ t) (h : s < t) : s + cfg.align ≤ t := by
  obtain ⟨k1, hk1⟩ := hs
  obtain ⟨k2, hk2⟩ := ht
  subst hk1
  subst hk2
  have halign : 0 < cfg.align := by
    rcases Nat.eq_zero_or_pos cfg.align with h0 | h0
    · simp [h0] at h
    · exact h0
  have hk : k1 < k2 := Nat.lt_of_mul_lt_mul_left h
  calc cfg.align * k1 + cfg.align = cfg.align * (k1 + 1) := by ring
  _ ≤ cfg.align * k2 := Nat.mul_le_mul_left _ hk

theorem data_walkable {h : NurseryHeap} {cfg : PinConfig} {sec : GCMemSection}
    {startN endN : Nat} {blocks : List Block}
    (hWF : PinWF h cfg sec startN endN blocks) : walkable blocks sec.data := by
  by_cases hs : ∃ b ∈ blocks, b.start = sec.data
  · exact Or.inl hs
  · refine Or.inr (fun b hb hin => ?_)
    have hlb := hWF.blocksLB b hb
    have : b.start = sec.data := by
      obtain ⟨h1, _⟩ := hin
      omega
    exact hs ⟨b, hb, this⟩

theorem blockEnd_walkable {blocks : List Block}
    (hp : blocks.Pairwise (fun a b => a.start + a.size ≤ b.start))
    {b : Block} (hb : b ∈ blocks) : walkable blocks (b.start + b.size) := by
  by_cases hs : ∃ b2 ∈ blocks, b2.start = b.start + b.size
  · exact Or.inl hs
  · refine Or.inr (fun b2 hb2 hin => ?_)
    rcases pairwise_mem_rel hp hb hb2 with he | hr | hr
    · subst he
      unfold inBlock at hin
      omega
    · obtain ⟨h1, h2⟩ := hin
      have : b2.start = b.start + b.size := by omega
      exact hs ⟨b2, hb2, this⟩
    · unfold inBlock at hin
      omega

theorem containing_start_ge {blocks : List Block}
    (hp : blocks.Pairwise (fun a b => a.start + a.size ≤ b.start))
    (hsz : ∀ b ∈ blocks, 0 < b.size)
    {s addr : Nat} (hw : walkable blocks s) (hsa : s ≤ addr)
    {b : Block} (hb : b ∈ blocks) (hin : inBlock b addr) : s ≤ b.start := by
  by_contra hlt
  push_neg at hlt
  have hins : inBlock b s := ⟨by omega, by obtain ⟨h1, h2⟩ := hin; omega⟩
  rcases hw with ⟨b2, hb2, he⟩ | hgap
  · have hin2 : inBlock b2 s := ⟨le_of_eq he, by have := hsz b2 hb2; omega⟩
    have hbe : b = b2 := inBlock_unique hp hb hb2 hins hin2
    rw [hbe] at hlt
    omega
  · exact hgap b hb hins

/-- The possible outcomes of the inner walk started at `s` with incoming
`last_obj = lo`, `last_obj_size = los`: it pins the (unique) non-fragment
object containing `addr`, or stops on the fragment placeholder containing
`addr` without pinning, or — when `addr` lies in a gap — passes `addr`
without pinning, leaving `last_obj` either untouched or on a fully walked
block that ends at or before `addr`. -/
def WalkOutcome (blocks : List Block) (addr s lo los : Nat) (w : WalkRes) : Prop :=
  (∃ b ∈ blocks, inBlock b addr ∧ b.isFrag = false ∧ s ≤ b.start ∧
      w.pinned = some b.start ∧ w.lastObj = b.start ∧ w.lastObjSize = b.size)
  ∨ (∃ b ∈ blocks, inBlock b addr ∧ b.isFrag = true ∧ s ≤ b.start ∧
      w.pinned = none ∧ w.lastObj = b.start ∧ w.lastObjSize = b.size)
  ∨ ((∀ b ∈ blocks, ¬ inBlock b addr) ∧ w.pinned = none ∧
      ((w.lastObj = lo ∧ w.lastObjSize = los) ∨
        (∃ b ∈ blocks, w.lastObj = b.start ∧ w.lastObjSize = b.size ∧
          s ≤ b.start ∧ b.start + b.size ≤ addr)))

theorem walkOutcome_mono_s {blocks : List Block} {addr s s' lo los : Nat} {w : WalkRes}
    (hout : WalkOutcome blocks addr s' lo los w) (hle : s ≤ s') :
    WalkOutcome blocks addr s lo los w := by
  rcases hout with ⟨b, hb, h1, h2, h3, h4⟩ | ⟨b, hb, h1, h2, h3, h4⟩ | ⟨h1, h2, h3⟩
  · exact Or.inl ⟨b, hb, h1, h2, le_trans hle h3, h4⟩
  · exact Or.inr (Or.inl ⟨b, hb, h1, h2, le_trans hle h3, h4⟩)
  · rcases h3 with h3 | ⟨b, hb, h4, h5, h6, h7⟩
    · exact Or.inr (Or.inr ⟨h1, h2, Or.inl h3⟩)
    · exact Or.inr (Or.inr ⟨h1, h2, Or.inr ⟨b, hb, h4, h5, le_trans hle h6, h7⟩⟩)

theorem walkOutcome_after_visit {blocks : List Block} {addr s lo los : Nat}
    {b : Block} {w : WalkRes}
    (hb : b ∈ blocks) (hsb : s ≤ b.start) (hend : b.start + b.size ≤ addr)
    (hout : WalkOutcome blocks addr (b.start + b.size) b.start b.size w) :
    WalkOutcome blocks addr s lo los w := by
  rcases hout with ⟨b2, hb2, h1, h2, h3, h4⟩ | ⟨b2, hb2, h1, h2, h3, h4⟩ | ⟨h1, h2, h3⟩
  · exact Or.inl ⟨b2, hb2, h1, h2, le_trans hsb (by omega), h4⟩
  · exact Or.inr (Or.inl ⟨b2, hb2, h1, h2, le_trans hsb (by omega), h4⟩)
  · rcases h3 with ⟨h3, h4⟩ | ⟨b2, hb2, h4, h5, h6, h7⟩
    · exact Or.inr (Or.inr ⟨h1, h2, Or.inr ⟨b, hb, h3, h4, hsb, hend⟩⟩)
    · exact Or.inr (Or.inr ⟨h1, h2, Or.inr ⟨b2, hb2, h4, h5,
        le_trans hsb (by omega), h7⟩⟩)

theorem pinWalk_spec {h : NurseryHeap} {cfg : PinConfig} {sec : GCMemSection}
    {startN endN : Nat} {blocks : List Block}
    (hWF : PinWF h cfg sec startN endN blocks) {addr : Nat} (haddr : addr < endN) :
    ∀ fuel s lo los w,
      walkable blocks s → cfg.align ∣ s → s ≤ addr →
      pinWalk h cfg addr fuel s lo los = some w →
      WalkOutcome blocks addr s lo los w := by
  intro fuel
  induction fuel with
  | zero => intro s lo los w _ _ _ hw; simp [pinWalk] at hw
  | succ n ih =>
    intro s lo los w hwalk halign hsa hw
    unfold pinWalk at hw
    dsimp only at hw
    by_cases hz : h.word s = 0
    · rw [if_pos hz] at hw
      have hgapS : ∀ b ∈ blocks, ¬ inBlock b s := by
        rcases hwalk with ⟨b, hb, he⟩ | hgap
        · exact absurd hz (he ▸ hWF.wordBlock b hb)
        · exact hgap
      have hs2 : alignUp cfg (s + cfg.ptrSize) = s + cfg.align :=
        alignUp_add_ptr cfg s hWF.alignPos hWF.ptrPos hWF.ptrLe halign
      have hnostart : ∀ b ∈ blocks, inBlock b addr → s + cfg.align ≤ b.start := by
        intro b hb hin
        have h1 : s ≤ b.start :=
          containing_start_ge hWF.ordered hWF.sizePos (Or.inr hgapS) hsa hb hin
        have h2 : b.start ≠ s := by
          intro he
          exact hgapS b hb ⟨le_of_eq he, by have := hWF.sizePos b hb; omega⟩
        have h3 : s < b.start := lt_of_le_of_ne h1 (Ne.symm h2)
        exact aligned_gap_next halign (hWF.blockAligned b hb) h3
      rw [hs2] at hw
      by_cases hle : s + cfg.align ≤ addr
      · rw [if_pos hle] at hw
        have hwalk2 : walkable blocks (s + cfg.align) := by
          by_cases hst : ∃ b ∈ blocks, b.start = s + cfg.align
          · exact Or.inl hst
          · refine Or.inr (fun b hb hin => ?_)
            obtain ⟨h1, h2⟩ := hin
            by_cases hbs : b.start ≤ s
            · exact hgapS b hb ⟨hbs, by omega⟩
            · push_neg at hbs
              have := aligned_gap_next halign (hWF.blockAligned b hb) hbs
              have hne : b.start ≠ s + cfg.align := fun he => hst ⟨b, hb, he⟩
              omega
        have hout := ih (s + cfg.align) lo los w hwalk2
          (Nat.dvd_add halign (dvd_refl _)) hle hw
        exact walkOutcome_mono_s hout (by omega)
      · rw [if_neg hle] at hw
        simp only [Option.some.injEq] at hw
        subst hw
        refine Or.inr (Or.inr ⟨?_, rfl, Or.inl ⟨rfl, rfl⟩⟩)
        intro b hb hin
        have := hnostart b hb hin
        obtain ⟨h1, h2⟩ := hin
        omega
    · rw [if_neg hz] at hw
      obtain ⟨b, hb, hbs⟩ : ∃ b ∈ blocks, b.start = s := by
        rcases hwalk with hstart | hgap
        · exact hstart
        · exact absurd (hWF.wordGap s (lt_of_le_of_lt hsa haddr) halign hgap) hz
      have hlos : alignUp cfg (h.objSize s) = b.size := hbs ▸ hWF.sizeAligned b hb
      have hfragEq : h.isFrag s = b.isFrag := hbs ▸ hWF.fragMatches b hb
      have hbpos : 0 < b.size := hWF.sizePos b hb
      have hbdvd : cfg.align ∣ b.size := hlos ▸ alignUp_dvd cfg (h.objSize s)
      rw [hlos] at hw
      have hwalkEnd : walkable blocks (s + b.size) := by
        have := blockEnd_walkable hWF.ordered hb
        rwa [hbs] at this
      have halignEnd : cfg.align ∣ s + b.size := Nat.dvd_add halign hbdvd
      by_cases hfr : h.isFrag s = true
      · rw [if_pos hfr] at hw
        by_cases hle : s + b.size ≤ addr
        · rw [if_pos hle] at hw
          have hout := ih (s + b.size) s b.size w hwalkEnd halignEnd hle hw
          have hout2 : WalkOutcome blocks addr (b.start + b.size) b.start b.size w := by
            rwa [hbs]
          exact walkOutcome_after_visit hb (le_of_eq hbs.symm) (by rw [hbs]; omega) hout2
        · rw [if_neg hle] at hw
          simp only [Option.some.injEq] at hw
          subst hw
          refine Or.inr (Or.inl ⟨b, hb, ⟨by omega, by omega⟩, by rw [← hfragEq]; exact hfr,
            le_of_eq hbs.symm, rfl, hbs.symm, rfl⟩)
      · rw [if_neg hfr] at hw
        by_cases hcont : s ≤ addr ∧ addr < s + b.size
        · rw [if_pos hcont] at hw
          simp only [Option.some.injEq] at hw
          subst hw
          refine Or.inl ⟨b, hb, ⟨by omega, by omega⟩, ?_, le_of_eq hbs.symm,
            by rw [hbs], hbs.symm, rfl⟩
          cases hfb : b.isFrag
          · rfl
          · rw [hfragEq] at hfr
            exact absurd hfb hfr
        · rw [if_neg hcont] at hw
          have hle : s + b.size ≤ addr := by
            rcases Nat.lt_or_ge addr (s + b.size) with hlt | hge
            · exact absurd ⟨hsa, hlt⟩ hcont
            · exact hge
          rw [if_pos hle] at hw
          have hout := ih (s + b.size) s b.size w hwalkEnd halignEnd hle hw
          have hout2 : WalkOutcome blocks addr (b.start + b.size) b.start b.size w := by
            rwa [hbs]
          exact walkOutcome_after_visit hb (le_of_eq hbs.symm) (by rw [hbs]; omega) hout2

theorem backwardScanStart_spec {h : NurseryHeap} {cfg : PinConfig} {sec : GCMemSection}
    {startN endN : Nat} {blocks : List Block}
    (hWF : PinWF h cfg sec startN endN blocks) (addr : Nat) :
    ∀ idx p, backwardScanStart sec addr idx = some p →
      p ≤ addr ∧ ∃ b ∈ blocks, b.start = p := by
  intro idx
  induction idx with
  | zero => intro p hp; simp [backwardScanStart] at hp
  | succ n ih =>
    intro p hp
    unfold backwardScanStart at hp
    cases hq : sec.scanStarts.getD n none with
    | some q =>
      rw [hq] at hp
      dsimp only at hp
      split at hp
      · cases hp
        exact ⟨by assumption, hWF.scanStartsValid n _ hq⟩
      · exact ih p hp
    | none =>
      rw [hq] at hp
      exact ih p hp

theorem findSearchStart_spec {h : NurseryHeap} {cfg : PinConfig} {sec : GCMemSection}
    {startN endN : Nat} {blocks : List Block}
    (hWF : PinWF h cfg sec startN endN blocks) (addr idx : Nat) (hsn : startN ≤ addr) :
    findSearchStart sec addr startN idx ≤ addr ∧
    walkable blocks (findSearchStart sec addr startN idx) ∧
    cfg.align ∣ findSearchStart sec addr startN idx := by
  have hfall : startN ≤ addr ∧ walkable blocks startN ∧ cfg.align ∣ startN := by
    refine ⟨hsn, ?_, ?_⟩
    · rw [hWF.startData]
      exact data_walkable hWF
    · rw [hWF.startData]
      exact hWF.dataAligned
  have hback : ∀ r : Option Nat, backwardScanStart sec addr idx = r →
      r.getD startN ≤ addr ∧ walkable blocks (r.getD startN) ∧
      cfg.align ∣ r.getD startN := by
    intro r hr
    cases r with
    | none => exact hfall
    | some q =>
      obtain ⟨hq1, b, hb, hbq⟩ := backwardScanStart_spec hWF addr idx q hr
      exact ⟨hq1, Or.inl ⟨b, hb, hbq⟩, hbq ▸ hWF.blockAligned b hb⟩
  unfold findSearchStart
  cases hq : sec.scanStarts.getD idx none with
  | some p =>
    dsimp only
    split
    · obtain ⟨b, hb, hbp⟩ := hWF.scanStartsValid idx p hq
      exact ⟨by assumption, Or.inl ⟨b, hb, hbp⟩, hbp ▸ hWF.blockAligned b hb⟩
    · exact hback _ rfl
  | none => exact hback _ rfl

theorem dedupConsec_absorb (F : List Nat) (v : Nat) (l : List Nat)
    (h : F.getLast? = some v) :
    dedupConsec (F ++ v :: l) = dedupConsec (F ++ l) := by
  induction F with
  | nil => simp at h
  | cons a t ih =>
    cases t with
    | nil =>
      simp only [List.getLast?_singleton, Option.some.injEq] at h
      subst h
      simp only [List.cons_append, List.nil_append]
      rw [dedupConsec]
      rw [if_pos rfl]
    | cons b t2 =>
      have hlast : (a :: b :: t2).getLast? = (b :: t2).getLast? := by
        simp [List.getLast?]
      rw [hlast] at h
      have hih := ih h
      simp only [List.cons_append] at hih ⊢
      rw [dedupConsec, dedupConsec]
      split <;> rw [hih]

/-- The loop invariant of the outer candidate loop, relating the locals to
`F`, the spec-side resolution results of the processed candidates.
`pinnedObjs` (and the gray queue) are the deduplicated `F`; the
`last_obj` window is either still unset or sits on a block that the most
recent walked candidate determined; the last value of `F` names a pinned
(non-fragment) block at or before the `last_obj` window. -/
def PinInv (blocks : List Block) (st : PinState) (F : List Nat) : Prop :=
  st.pinnedObjs = dedupConsec F ∧
  st.grayQueue = dedupConsec F ∧
  ((st.lastObj = 0 ∧ st.lastObjSize = 0 ∧ F = [] ∧
      (st.last = 0 ∨ specPinnedObject blocks st.last = none)) ∨
    (∃ b ∈ blocks, st.lastObj = b.start ∧ st.lastObjSize = b.size ∧ b.start ≤ st.last ∧
      ((b.isFrag = true ∧ inBlock b st.last ∧ specPinnedObject blocks st.last = none) ∨
       (b.isFrag = false ∧ inBlock b st.last ∧
         specPinnedObject blocks st.last = some b.start ∧ F.getLast? = some b.start) ∨
       (b.start + b.size ≤ st.last ∧ specPinnedObject blocks st.last = none)))) ∧
  (∀ v, F.getLast? = some v → ∃ bv ∈ blocks, bv.start = v ∧ bv.isFrag = false ∧
    v ≤ st.lastObj ∧ (v = st.lastObj ∨ bv.start + bv.size ≤ st.lastObj))

theorem pinInv_init (blocks : List Block) : PinInv blocks initPinState [] := by
  refine ⟨rfl, rfl, Or.inl ⟨rfl, rfl, rfl, Or.inl rfl⟩, ?_⟩
  intro v hv
  simp at hv

/-- A candidate equal to `last` (or falling inside the `last_obj` window)
resolves to nothing, or to the value `F` already ends with. -/
theorem pinInv_skip_spec {blocks : List Block} {st : PinState} {F : List Nat}
    (hp : blocks.Pairwise (fun a b => a.start + a.size ≤ b.start))
    (hinv : PinInv blocks st F) {addr : Nat} (hla : st.last ≤ addr)
    (hpos : 0 < addr)
    (hcase : addr = st.last ∨ (st.lastObj ≤ addr ∧ addr < st.lastObj + st.lastObjSize)) :
    specPinnedObject blocks addr = none ∨
      (∃ v, specPinnedObject blocks addr = some v ∧ F.getLast? = some v) := by
  obtain ⟨-, -, h3, -⟩ := hinv
  rcases hcase with hceq | hcdup
  · subst hceq
    rcases h3 with ⟨-, -, -, hA⟩ | ⟨b, hb, -, -, -, hB⟩
    · rcases hA with h0 | hnone
      · omega
      · exact Or.inl hnone
    · rcases hB with ⟨-, -, hnone⟩ | ⟨-, -, hsome, hlastF⟩ | ⟨-, hnone⟩
      · exact Or.inl hnone
      · exact Or.inr ⟨b.start, hsome, hlastF⟩
      · exact Or.inl hnone
  · rcases h3 with ⟨hlo, hls, -, -⟩ | ⟨b, hb, hlo, hls, hble, hB⟩
    · rw [hlo, hls] at hcdup
      omega
    · rw [hlo, hls] at hcdup
      have hin : inBlock b addr := ⟨hcdup.1, hcdup.2⟩
      rcases hB with ⟨hf, -, -⟩ | ⟨hf, -, -, hlastF⟩ | ⟨hend, -⟩
      · exact Or.inl (specPinnedObject_of_frag hp hb hin hf)
      · exact Or.inr ⟨b.start, specPinnedObject_of_object hp hb hin hf, hlastF⟩
      · omega

/-- The last value of `F` cannot be the object about to be pinned: a fresh
pin appends a genuinely new value. -/
theorem pinInv_fresh_pin {blocks : List Block} {st : PinState} {F : List Nat}
    (hp : blocks.Pairwise (fun a b => a.start + a.size ≤ b.start))
    (hsz : ∀ b ∈ blocks, 0 < b.size)
    (hinv : PinInv blocks st F) {addr : Nat} (hla : st.last ≤ addr)
    (hnodup : ¬(st.lastObj ≤ addr ∧ addr < st.lastObj + st.lastObjSize))
    {bp : Block} (hbp : bp ∈ blocks) (hin : inBlock bp addr) (hnf : bp.isFrag = false) :
    F.getLast? ≠ some bp.start := by
  intro hlastF
  obtain ⟨-, -, h3, h4⟩ := hinv
  obtain ⟨bv, hbv, hbvs, hbvnf, hvle, hvcase⟩ := h4 bp.start hlastF
  have hbveq : bv = bp := blockStart_unique hp hsz hbv hbp hbvs
  subst hbveq
  rcases hvcase with hveq | hvend
  · -- bv.start = st.lastObj
    rcases h3 with ⟨hlo, -, hF, -⟩ | ⟨b, hb, hlo, hls, hble, hB⟩
    · rw [hF] at hlastF
      simp at hlastF
    · have hbe : bv = b := by
        apply blockStart_unique hp hsz hbv hb
        rw [hbvs, hveq, hlo]
      subst hbe
      rcases hB with ⟨hf, -, -⟩ | ⟨-, -, -, -⟩ | ⟨hend, -⟩
      · rw [hnf] at hf
        cases hf
      · -- inBlock b st.last case: addr in the window, contradicting hnodup
        apply hnodup
        rw [hlo, hls]
        obtain ⟨h1, h2⟩ := hin
        omega
      · obtain ⟨h1, h2⟩ := hin
        omega
  · -- bv.start + bv.size ≤ st.lastObj
    rcases h3 with ⟨hlo, -, hF, -⟩ | ⟨b, hb, hlo, hls, hble, hB⟩
    · rw [hF] at hlastF
      simp at hlastF
    · obtain ⟨h1, h2⟩ := hin
      rw [hlo] at hvend
      omega

theorem pinInv_window_advance {blocks : List Block}
    (hp : blocks.Pairwise (fun a b => a.start + a.size ≤ b.start))
    (hsz : ∀ b ∈ blocks, 0 < b.size)
    {st : PinState} {F : List Nat} (hinv : PinInv blocks st F)
    {nb : Block} (hnb : nb ∈ blocks) (hge : st.lastObj ≤ nb.start) :
    ∀ v, F.getLast? = some v → ∃ bv ∈ blocks, bv.start = v ∧ bv.isFrag = false ∧
      v ≤ nb.start ∧ (v = nb.start ∨ bv.start + bv.size ≤ nb.start) := by
  intro v hv
  obtain ⟨-, -, h3, h4⟩ := hinv
  obtain ⟨bv, hbv, hbvs, hbvnf, hvle, hvcase⟩ := h4 v hv
  refine ⟨bv, hbv, hbvs, hbvnf, le_trans hvle hge, ?_⟩
  rcases hvcase with hveq | hvend
  · rcases h3 with ⟨hlo, -, hF, -⟩ | ⟨b, hb, hlo, hls, -, -⟩
    · rw [hF] at hv
      simp at hv
    · have hbe : bv = b := blockStart_unique hp hsz hbv hb (by rw [hbvs, hveq, hlo])
      rcases pairwise_mem_rel hp hbv hnb with he | hr | hr
    -- bv = nb, or bv before nb, or nb before bv (impossible)
      · rw [he] at hbvs
        exact Or.inl hbvs.symm
      · exact Or.inr hr
      · exfalso
        have hnbsz := hsz nb hnb
        have hbvsz := hsz bv hbv
        omega
  · exact Or.inr (le_trans hvend hge)

theorem pinInv_walk_step {h : NurseryHeap} {cfg : PinConfig} {sec : GCMemSection}
    {startN endN : Nat} {blocks : List Block}
    (hWF : PinWF h cfg sec startN endN blocks)
    {st : PinState} {F : List Nat} {addr ss1 : Nat} {w : WalkRes}
    (hinv : PinInv blocks st F)
    (hla : st.last ≤ addr)
    (hnodup : ¬(st.lastObj ≤ addr ∧ addr < st.lastObj + st.lastObjSize))
    (hout : WalkOutcome blocks addr ss1 st.lastObj st.lastObjSize w)
    (hss1lo : st.lastObj ≤ ss1) :
    w.pinned.toList = (specPinnedObject blocks addr).toList ∧
    PinInv blocks
      { last := addr, lastObj := w.lastObj, lastObjSize := w.lastObjSize,
        pinnedObjs := st.pinnedObjs ++ w.pinned.toList,
        grayQueue := st.grayQueue ++ w.pinned.toList }
      (F ++ (specPinnedObject blocks addr).toList) := by
  have hp := hWF.ordered
  have hsz := hWF.sizePos
  obtain ⟨hinv1, hinv2, hinv3, hinv4⟩ := hinv
  rcases hout with ⟨bp, hbp, hin, hnf, hsb, hpin, hlo2, hls2⟩ |
    ⟨bf, hbf, hin, hf, hsb, hpin, hlo2, hls2⟩ | ⟨hnone, hpin, hrest⟩
  · -- pinned case
    have hspec : specPinnedObject blocks addr = some bp.start :=
      specPinnedObject_of_object hp hbp hin hnf
    have hfresh : F.getLast? ≠ some bp.start :=
      pinInv_fresh_pin hp hsz ⟨hinv1, hinv2, hinv3, hinv4⟩ hla hnodup hbp hin hnf
    rw [hspec, hpin]
    unfold PinInv
    dsimp only [Option.toList]
    refine ⟨rfl, ?_, ?_, ?_, ?_⟩
    · rw [dedupConsec_append_last, if_neg hfresh, hinv1]
    · rw [dedupConsec_append_last, if_neg hfresh, hinv2]
    · exact Or.inr ⟨bp, hbp, hlo2, hls2, hin.1,
        Or.inr (Or.inl ⟨hnf, hin, hspec, List.getLast?_concat F⟩)⟩
    · intro v hv
      rw [List.getLast?_concat] at hv
      cases hv
      exact ⟨bp, hbp, rfl, hnf, le_of_eq hlo2.symm, Or.inl hlo2.symm⟩
  · -- fragment case
    have hspec : specPinnedObject blocks addr = none :=
      specPinnedObject_of_frag hp hbf hin hf
    rw [hspec, hpin]
    unfold PinInv
    dsimp only [Option.toList]
    simp only [List.append_nil]
    refine ⟨trivial, hinv1, hinv2, ?_, ?_⟩
    · exact Or.inr ⟨bf, hbf, hlo2, hls2, hin.1, Or.inl ⟨hf, hin, hspec⟩⟩
    · intro v hv
      have := pinInv_window_advance hp hsz ⟨hinv1, hinv2, hinv3, hinv4⟩ hbf
        (le_trans hss1lo hsb) v hv
      rw [hlo2]
      exact this
  · -- gap case
    have hspec : specPinnedObject blocks addr = none := specPinnedObject_of_gap hnone
    rw [hspec, hpin]
    unfold PinInv
    dsimp only [Option.toList]
    simp only [List.append_nil]
    rcases hrest with ⟨hlo2, hls2⟩ | ⟨b2, hb2, hlo2, hls2, hsb2, hend2⟩
    · -- last_obj unchanged
      refine ⟨trivial, hinv1, hinv2, ?_, ?_⟩
      · rcases hinv3 with ⟨hlo, hls, hF, -⟩ | ⟨b, hb, hlo, hls, hble, -⟩
        · exact Or.inl ⟨hlo2.trans hlo, hls2.trans hls, hF, Or.inr hspec⟩
        · refine Or.inr ⟨b, hb, hlo2.trans hlo, hls2.trans hls, by omega,
            Or.inr (Or.inr ⟨?_, hspec⟩)⟩
          rcases Nat.lt_or_ge addr (b.start + b.size) with hlt | hge
          · exact absurd ⟨by omega, by rw [hlo, hls]; exact hlt⟩ hnodup
          · exact hge
      · intro v hv
        obtain ⟨bv, hbv, h1, h2, h3, h4⟩ := hinv4 v hv
        rw [hlo2]
        exact ⟨bv, hbv, h1, h2, h3, h4⟩
    · -- last_obj advanced to a fully walked block
      refine ⟨trivial, hinv1, hinv2, ?_, ?_⟩
      · exact Or.inr ⟨b2, hb2, hlo2, hls2, by omega,
          Or.inr (Or.inr ⟨hend2, hspec⟩)⟩
      · intro v hv
        have := pinInv_window_advance hp hsz ⟨hinv1, hinv2, hinv3, hinv4⟩ hb2
          (le_trans hss1lo hsb2) v hv
        rw [hlo2]
        exact this

theorem pin_objects_run_spec {h : NurseryHeap} {cfg : PinConfig} {sec : GCMemSection}
    {startN endN : Nat} {blocks : List Block}
    (hWF : PinWF h cfg sec startN endN blocks) :
    ∀ (cands : List Nat) (st : PinState) (F : List Nat) (fuel : Nat) (st' : PinState),
      cands.Pairwise (· ≤ ·) →
      (∀ a ∈ cands, startN ≤ a ∧ a < endN) →
      (∀ a ∈ cands, st.last ≤ a) →
      PinInv blocks st F →
      pin_objects_from_addresses h cfg sec startN endN fuel cands st = some st' →
      st'.pinnedObjs = dedupConsec (F ++ cands.filterMap (specPinnedObject blocks)) ∧
      st'.grayQueue = dedupConsec (F ++ cands.filterMap (specPinnedObject blocks)) := by
  intro cands
  induction cands with
  | nil =>
    intro st F fuel st' _ _ _ hinv hrun
    unfold pin_objects_from_addresses at hrun
    simp only [Option.some.injEq] at hrun
    subst hrun
    simpa using ⟨hinv.1, hinv.2.1⟩
  | cons addr rest ih =>
    intro st F fuel st' hpw hranges hlast hinv hrun
    obtain ⟨hhd, htl⟩ := List.pairwise_cons.mp hpw
    have hrange := hranges addr (List.mem_cons_self _ _)
    have hla : st.last ≤ addr := hlast addr (List.mem_cons_self _ _)
    have hpos : 0 < addr := lt_of_lt_of_le hWF.startPos hrange.1
    have hrestRange : ∀ a ∈ rest, startN ≤ a ∧ a < endN :=
      fun a ha => hranges a (List.mem_cons_of_mem _ ha)
    unfold pin_objects_from_addresses at hrun
    dsimp only at hrun
    by_cases heq : addr = st.last
    · -- skipped: candidate equals `last`
      rw [if_neg (fun hc => hc.1 heq)] at hrun
      rcases pinInv_skip_spec hWF.ordered hinv hla hpos (Or.inl heq) with hnone | ⟨v, hv, hFl⟩
      · have := ih st F fuel st' htl hrestRange
          (fun a ha => hlast a (List.mem_cons_of_mem _ ha)) hinv hrun
        rw [List.filterMap_cons, hnone]
        exact this
      · have := ih st F fuel st' htl hrestRange
          (fun a ha => hlast a (List.mem_cons_of_mem _ ha)) hinv hrun
        rw [List.filterMap_cons, hv]
        dsimp only
        rw [dedupConsec_absorb F v _ hFl]
        exact this
    · rw [if_pos ⟨heq, hrange.1, hrange.2⟩] at hrun
      by_cases hdup : st.lastObj ≤ addr ∧ addr < st.lastObj + st.lastObjSize
      · -- skipped: candidate inside the last_obj window
        rw [if_pos hdup] at hrun
        rcases pinInv_skip_spec hWF.ordered hinv hla hpos (Or.inr hdup) with hnone | ⟨v, hv, hFl⟩
        · have := ih st F fuel st' htl hrestRange
            (fun a ha => hlast a (List.mem_cons_of_mem _ ha)) hinv hrun
          rw [List.filterMap_cons, hnone]
          exact this
        · have := ih st F fuel st' htl hrestRange
            (fun a ha => hlast a (List.mem_cons_of_mem _ ha)) hinv hrun
          rw [List.filterMap_cons, hv]
          dsimp only
          rw [dedupConsec_absorb F v _ hFl]
          exact this
      · -- the walk runs
        rw [if_neg hdup] at hrun
        rw [if_pos (hWF.scanLen addr hrange.2)] at hrun
        obtain ⟨hss0a, hss0w, hss0al⟩ :=
          findSearchStart_spec hWF addr ((addr - sec.data) / cfg.scanStartSize) hrange.1
        -- facts about the adjusted walk entry
        have hss1 : ∀ ss1, (if findSearchStart sec addr startN
              ((addr - sec.data) / cfg.scanStartSize) < st.lastObj then
              st.lastObj + st.lastObjSize
            else findSearchStart sec addr startN
              ((addr - sec.data) / cfg.scanStartSize)) = ss1 →
            st.lastObj ≤ ss1 ∧ ss1 ≤ addr ∧ walkable blocks ss1 ∧ cfg.align ∣ ss1 := by
          intro ss1 hss1
          split at hss1
          · rename_i hlt
            rcases hinv.2.2.1 with ⟨hlo, -, -, -⟩ | ⟨b, hb, hlo, hls, hble, -⟩
            · rw [hlo] at hlt
              omega
            · subst hss1
              rw [hlo, hls]
              refine ⟨by omega, ?_, blockEnd_walkable hWF.ordered hb,
                Nat.dvd_add (hWF.blockAligned b hb)
                  ((hWF.sizeAligned b hb) ▸ alignUp_dvd cfg _)⟩
              rcases Nat.lt_or_ge addr (b.start + b.size) with h2 | h2
              · exact absurd ⟨by omega, by rw [hlo, hls]; exact h2⟩ hdup
              · exact h2
          · subst hss1
            rename_i hge
            exact ⟨Nat.le_of_not_lt hge, hss0a, hss0w, hss0al⟩
        cases hwk : pinWalk h cfg addr fuel
            (if findSearchStart sec addr startN
                ((addr - sec.data) / cfg.scanStartSize) < st.lastObj then
              st.lastObj + st.lastObjSize
            else findSearchStart sec addr startN
              ((addr - sec.data) / cfg.scanStartSize))
            st.lastObj st.lastObjSize with
        | none => rw [hwk] at hrun; simp at hrun
        | some w =>
          rw [hwk] at hrun
          dsimp only at hrun
          obtain ⟨hw1, hw2, hw3, hw4⟩ := hss1 _ rfl
          have hout := pinWalk_spec hWF hrange.2 fuel _ st.lastObj st.lastObjSize w
            hw3 hw4 hw2 hwk
          obtain ⟨htl2, hinv2⟩ := pinInv_walk_step hWF hinv hla hdup hout hw1
          have hstep := ih _ (F ++ (specPinnedObject blocks addr).toList) fuel st'
            htl hrestRange (fun a ha => hhd a ha) hinv2 ?hrun2
          case hrun2 => exact hrun
          rw [List.filterMap_cons]
          cases hsv : specPinnedObject blocks addr with
          | none =>
            rw [hsv] at hstep
            simpa using hstep
          | some v =>
            rw [hsv] at hstep
            dsimp only
            obtain ⟨hs1, hs2⟩ := hstep
            constructor
            · rw [hs1]
              simp
            · rw [hs2]
              simp

/-- C2: on a well-formed section, for every sorted candidate array with
addresses in the section's range, `pin_objects_from_addresses` produces as
the `definitely_pinned` prefix — and enqueues on the gray queue — exactly
the objects the spec describes: each candidate resolved (via the scan-start
anchor and the forward walk over objects and fragment placeholders) to the
object whose `[start, start+size)` contains it, fragment placeholders and
gap candidates pinning nothing, consecutive candidates in one object
pinning it once. -/
theorem pin_objects_from_addresses_resolves
    (h : NurseryHeap) (cfg : PinConfig) (sec : GCMemSection)
    (startN endN : Nat) (blocks : List Block) (cands : List Nat) (fuel : Nat)
    (st' : PinState)
    (hWF : PinWF h cfg sec startN endN blocks)
    (hsorted : cands.Pairwise (· ≤ ·))
    (hrange : ∀ a ∈ cands, startN ≤ a ∧ a < endN)
    (hrun : pin_objects_from_addresses h cfg sec startN endN fuel cands initPinState =
      some st') :
    st'.pinnedObjs = specPinnedList blocks cands ∧
    st'.grayQueue = specPinnedList blocks cands := by
  have := pin_objects_run_spec hWF cands initPinState [] fuel st' hsorted hrange
    (fun a _ => Nat.zero_le a) (pinInv_init blocks) hrun
  simpa [specPinnedList] using this

/-- The spec-side pinned list of a sorted candidate list is strictly
increasing and no longer than the input. -/
theorem specPinnedList_sorted_facts {blocks : List Block}
    (hp : blocks.Pairwise (fun a b => a.start + a.size ≤ b.start))
    (cands : List Nat) (hsorted : cands.Pairwise (· ≤ ·)) :
    (specPinnedList blocks cands).length ≤ cands.length ∧
    (specPinnedList blocks cands).Pairwise (· < ·) := by
  constructor
  · exact le_trans (dedupConsec_length_le _) (List.length_filterMap_le _ _)
  · have hmono : (cands.filterMap (specPinnedObject blocks)).Pairwise (· ≤ ·) := by
      rw [List.pairwise_filterMap]
      refine hsorted.imp ?_
      intro a a' hle v hv v' hv'
      exact specPinnedObject_mono hp hle hv hv'
    have hchain := dedupConsec_chain_lt _ hmono.chain'
    exact List.chain'_iff_pairwise.mp hchain

/-- C9: on a well-formed section with sorted candidates, the function pins
each object at most once (the written prefix has no duplicates), returns at
most as many pinned objects as input candidates, and the
`definitely_pinned` prefix is in strictly increasing address order. -/
theorem pin_objects_from_addresses_dedup
    (h : NurseryHeap) (cfg : PinConfig) (sec : GCMemSection)
    (startN endN : Nat) (blocks : List Block) (cands : List Nat) (fuel : Nat)
    (st' : PinState)
    (hWF : PinWF h cfg sec startN endN blocks)
    (hsorted : cands.Pairwise (· ≤ ·))
    (hrange : ∀ a ∈ cands, startN ≤ a ∧ a < endN)
    (hrun : pin_objects_from_addresses h cfg sec startN endN fuel cands initPinState =
      some st') :
    st'.pinnedObjs.length ≤ cands.length ∧
    st'.pinnedObjs.Pairwise (· < ·) ∧
    st'.pinnedObjs.Nodup := by
  have hres := pin_objects_run_spec hWF cands initPinState [] fuel st' hsorted hrange
    (fun a _ => Nat.zero_le a) (pinInv_init blocks) hrun
  have hfacts := specPinnedList_sorted_facts hWF.ordered cands hsorted
  have hpin : st'.pinnedObjs = specPinnedList blocks cands := by
    simpa [specPinnedList] using hres.1
  rw [hpin]
  exact ⟨hfacts.1, hfacts.2, hfacts.2.imp ne_of_lt⟩

/-- Concrete nursery for the pinning witnesses: objects at 64 (size 16) and
112 (size 16), a fragment placeholder at 80 (size 24), a zeroed gap at
104-112 and above 128. -/
def pinHeapC : NurseryHeap :=
  { word := fun p => if p = 64 ∨ p = 80 ∨ p = 112 then 1 else 0
    objSize := fun p => if p = 64 then 12 else if p = 80 then 24 else
      if p = 112 then 16 else 0
    isFrag := fun p => decide (p = 80) }

def pinCfgC : PinConfig := { align := 8, ptrSize := 8, scanStartSize := 64 }

def pinSecC : GCMemSection := { data := 64, scanStarts := [some 64, none] }

def pinBlocksC : List Block := [⟨64, 16, false⟩, ⟨80, 24, true⟩, ⟨112, 16, false⟩]

set_option maxRecDepth 8192 in
theorem pinWFC : PinWF pinHeapC pinCfgC pinSecC 64 192 pinBlocksC := by
  refine ⟨?_, ?_, ?_, ?_, ?_, ?_, ?_, ?_, ?_, ?_, ?_, ?_, ?_, ?_, ?_, ?_⟩
  · decide
  · decide
  · decide
  · decide
  · decide
  · decide
  · decide
  · decide
  · decide
  · decide
  · decide
  · decide
  · decide
  · decide
  · -- scanStartsValid
    intro i p hp
    match i with
    | 0 =>
      simp [pinSecC, List.getD] at hp
      subst hp
      exact ⟨⟨64, 16, false⟩, by simp [pinBlocksC], rfl⟩
    | 1 => simp [pinSecC, List.getD] at hp
    | (n + 2) => simp [pinSecC, List.getD] at hp
  · decide

/-- Witness for C2: on the concrete nursery (objects at 64 and 112, a
fragment placeholder at 80) with candidates [68, 70, 90, 116], the run
pins exactly [64, 112], matching the spec-side resolution. -/
theorem pin_objects_from_addresses_resolves_witness :
    (⟨116, 112, 16, [64, 112], [64, 112]⟩ : PinState).pinnedObjs =
      specPinnedList pinBlocksC [68, 70, 90, 116] ∧
    (⟨116, 112, 16, [64, 112], [64, 112]⟩ : PinState).grayQueue =
      specPinnedList pinBlocksC [68, 70, 90, 116] :=
  pin_objects_from_addresses_resolves pinHeapC pinCfgC pinSecC 64 192 pinBlocksC
    [68, 70, 90, 116] 20 ⟨116, 112, 16, [64, 112], [64, 112]⟩ pinWFC
    (by decide) (by decide) rfl

/-- Witness for C9: on the same concrete nursery, the candidates
[68, 70, 90, 116] (two in one object, one in a fragment) yield a pinned
prefix of length 2 ≤ 4, strictly increasing and duplicate-free. -/
theorem pin_objects_from_addresses_dedup_witness :
    (⟨116, 112, 16, [64, 112], [64, 112]⟩ : PinState).pinnedObjs.length ≤
      ([68, 70, 90, 116] : List Nat).length ∧
    (⟨116, 112, 16, [64, 112], [64, 112]⟩ : PinState).pinnedObjs.Pairwise (· < ·) ∧
    (⟨116, 112, 16, [64, 112], [64, 112]⟩ : PinState).pinnedObjs.Nodup :=
  pin_objects_from_addresses_dedup pinHeapC pinCfgC pinSecC 64 192 pinBlocksC
    [68, 70, 90, 116] 20 ⟨116, 112, 16, [64, 112], [64, 112]⟩ pinWFC
    (by decide) (by decide) rfl

end SgenGC
